import Mathlib

/-!
Verification development for the Sudoku CSP solver in `sudoku_A2_45.py`.

The program is embedded shallowly:

* a variable is a grid position, a pair of naturals;
* a Python domain (a list or set of candidate values) is a `List ℕ`;
  the program only ever builds duplicate-free value collections, and for
  the small-integer sets it builds, CPython set iteration is in increasing
  order, so a sorted duplicate-free list is a faithful model of both
  representations;
* the domain dictionary is a total function `Var → List ℕ`; the Python
  dict raises `KeyError` outside its key set, and every access the
  program performs stays inside the key set, so totalising is harmless;
* a `Constraint` keeps only its scope: every constraint the program
  constructs carries the same condition function `is_all_unique`, and all
  constructed scopes are pairwise distinct, so Python object identity on
  constraints coincides with structural equality of scopes;
* Python `False` / `None` results and raised exceptions are made explicit
  with `SolveResult` and `Except String`;
* the two unbounded loops (the arc-consistency work loop and the
  domain-splitting recursion) are written with explicit fuel, and the
  public wrappers supply a fuel bound computed from the measure that
  proves termination, so all definitions are structural and executable.
-/

namespace SudokuA2

abbrev Var := ℕ × ℕ

abbrev Domains := Var → List ℕ

abbrev Grid := List (List ℕ)

/-- `is_all_unique(assignment, positions)`: all values at pairwise distinct
positions are pairwise distinct. -/
def is_all_unique (env : Var → ℕ) (positions : List Var) : Bool :=
  positions.all fun p1 => positions.all fun p2 =>
    decide (p1 = p2) || decide (env p1 ≠ env p2)

/-- A constraint is its scope; the condition is always `is_all_unique`
in this program. -/
structure Constraint where
  scope : List Var
deriving DecidableEq

/-- `Constraint.holds(assignment)`: apply the (all-different) condition to
the assignment restricted to the scope. -/
def Constraint.holds (c : Constraint) (env : Var → ℕ) : Bool :=
  is_all_unique env c.scope

/-- The CSP of `class CSP`: `variables` is the iteration order of the
Python variable set (its key set), `domains` the domain dictionary,
`constraints` the constraint list. -/
structure CSP where
  vars : List Var
  domains : Domains
  constraints : List Constraint

abbrev Arc := Var × Constraint

/-- `var_to_const[v]`: the constraints whose scope contains `v`. -/
def var_to_const (csp : CSP) (v : Var) : List Constraint :=
  csp.constraints.filter fun c => v ∈ c.scope

/-- The full arc set `{(var, const) | const ∈ constraints, var ∈ scope(const)}`
used to seed `make_arc_consistent` when `to_do` is `None`. -/
def allArcs (csp : CSP) : List Arc :=
  (csp.constraints.flatMap fun c => c.scope.map fun v => (v, c)).dedup

/-- `Solver.new_to_do(var, const)`: all arcs `(nvar, nconst)` with `nconst` a
constraint of `var` other than `const` and `nvar ∈ scope(nconst) \ {var}`.
Written as a filter of the full arc list; this has exactly the membership of
the Python set comprehension. -/
def new_to_do (csp : CSP) (var : Var) (const : Option Constraint) : List Arc :=
  (allArcs csp).filter fun p =>
    decide (var ∈ p.2.scope) && decide (some p.2 ≠ const) && decide (p.1 ≠ var)

/-- The empty environment backing the one-entry dict `{var: val}`; the
default value 0 is never read by `any_holds` (every position it consults is
assigned first). -/
def baseEnv : Var → ℕ := fun _ => 0

/-- `Solver.any_holds(domains, const, env, other_vars, ind, assigned_vars)`:
does some assignment of values from `domains` to `other_vars` extend `env`
to an assignment satisfying `const`?  The `is_all_unique` test on
`[var] + assigned_vars` is the early pruning of the source. -/
def any_holds (domains : Domains) (c : Constraint) (env : Var → ℕ) :
    List Var → List Var → Bool
  | [], _ => c.holds env
  | cur :: rest, assigned =>
    (domains cur).any fun val =>
      let env2 := Function.update env cur val
      is_all_unique env2 (cur :: assigned) && any_holds domains c env2 rest (cur :: assigned)

/-- `scope(const)` minus the arc variable: `other_vars` of the revise step. -/
def scopeOthers (c : Constraint) (v : Var) : List Var :=
  c.scope.filter fun ov => ov ≠ v

/-- The support test of the revise step:
`any_holds(domains, const, {var: val}, other_vars)`. -/
def supported (domains : Domains) (c : Constraint) (v : Var) (val : ℕ) : Bool :=
  any_holds domains c (Function.update baseEnv v val) (scopeOthers c v) []

/-- One revise step of `make_arc_consistent`: the values of `domains[v]`
that have a supporting combination for `c` (line 103 of the source). -/
def revise (domains : Domains) (c : Constraint) (v : Var) : List ℕ :=
  (domains v).filter (supported domains c v)

/-- Sum of all domain sizes over the variable set. -/
def totalSize (csp : CSP) (d : Domains) : ℕ :=
  ∑ v ∈ csp.vars.toFinset, (d v).length

/-- Fuel bound for the arc-consistency work loop: each iteration either
strictly shrinks some domain (and enqueues at most `|allArcs|` arcs) or
strictly shrinks the queue. -/
def macMeasure (csp : CSP) (d : Domains) (t : List Arc) : ℕ :=
  totalSize csp d * ((allArcs csp).length + 1) + t.length + 1

/-- The `while to_do:` loop of `Solver.make_arc_consistent`, with explicit
fuel.  The popped arc is the head of the queue (the source pops an
arbitrary element of a set; any fixed choice is a faithful deterministic
refinement).  Returns `none` only if the fuel runs out. -/
def macFuel : ℕ → CSP → Domains → List Arc → Option Domains
  | 0, _, _, _ => none
  | _ + 1, _, d, [] => some d
  | fuel + 1, csp, d, (v, c) :: rest =>
    if revise d c v = d v then macFuel fuel csp d rest
    else macFuel fuel csp (Function.update d v (revise d c v))
      (rest ++ (new_to_do csp v (some c)).filter fun a => a ∉ rest)

/-- `Solver.make_arc_consistent(orig_domains, to_do)`: `None` arguments
default to the CSP domains and the full arc set. -/
def make_arc_consistent (csp : CSP) (orig_domains : Option Domains)
    (to_do : Option (List Arc)) : Domains :=
  let d := orig_domains.getD csp.domains
  let t := to_do.getD (allArcs csp)
  (macFuel (macMeasure csp d t) csp d t).getD d

/-- `Solver.partition_domain(dom)`: first half = the set of the first
⌊|dom|/2⌋ elements of `list(dom)`, second half = the set difference. -/
def partition_domain (dom : List ℕ) : List ℕ × List ℕ :=
  let split := dom.length / 2
  let dom1 := (dom.take split).dedup
  (dom1, dom.filter fun x => x ∉ dom1)

/-- `Solver.copy_with_assign(domains, var, new_domain)`. -/
def copy_with_assign (domains : Domains) (var : Option Var)
    (new_domain : List ℕ) : Domains :=
  match var with
  | none => domains
  | some v => Function.update domains v new_domain

/-- `Solver.select_first(iterables)` on a value collection; in the source
it yields the first element (here: of the sorted-set order) and is only
applied to singleton domains at its value call site. -/
def select_first (l : List ℕ) : ℕ := l.headD 0

/-- Python `min` on a list of naturals; the empty case raises and is
guarded at the call site. -/
def listMin : List ℕ → ℕ
  | [] => 0
  | x :: xs => xs.foldl min x

/-- `Solver.select_most_constrained_var(iterables)` applied to a one-shot
generator.  The outer list comprehension pulls the first element `v1`; the
inner `min(... for i in iterables)` then consumes the remainder of the same
iterator, so it raises `ValueError` when the iterator held exactly one
element, and otherwise compares `len(csp.domains[v1])` (the original CSP
domains, not the propagated ones) with the minimum over the remaining
elements only; the comprehension ends with the iterator exhausted, so at
most `v1` is ever produced. -/
def select_most_constrained_var (csp : CSP) (it : List Var) :
    Except String (Option Var) :=
  match it with
  | [] => .ok none
  | v1 :: rest =>
    match rest with
    | [] => .error "ValueError: min arg is an empty sequence"
    | _ :: _ =>
      if (csp.domains v1).length = listMin (rest.map fun i => (csp.domains i).length)
      then .ok (some v1) else .ok none

/-- Result of `Solver.solve_recursive_ds`: a solution dict, Python `False`
(line 142), or Python `None` (the implicit return when `if var:` fails). -/
inductive SolveResult where
  | sol (a : List (Var × ℕ))
  | falseVal
  | noneVal
deriving DecidableEq

/-- Python truthiness of a `solve_recursive_ds` result: a dict is truthy
iff nonempty, `False` and `None` are falsy. -/
def SolveResult.truthy : SolveResult → Bool
  | .sol a => !a.isEmpty
  | .falseVal => false
  | .noneVal => false

/-- Fuel bound for the domain-splitting recursion: each branch strictly
shrinks the total domain size. -/
def solveMeasure (csp : CSP) (d : Domains) : ℕ :=
  totalSize csp d + 1

/-- `Solver.solve_recursive_ds(domains, to_do)` with explicit fuel.
`none` is returned only on fuel exhaustion; a raised `ValueError` from
`select_most_constrained_var` propagates as `.error`.  The iterations over
the `domains` dict keys (lines 141, 143, 144) and over `self.csp.vars`
(line 146) both run over the variable set, modelled by `csp.vars`. -/
def solveFuel : ℕ → CSP → Domains → Option (List Arc) →
    Option (Except String SolveResult)
  | 0, _, _, _ => none
  | fuel + 1, csp, d, seed =>
    if csp.vars.any fun v => ((make_arc_consistent csp (some d) seed) v).length = 0 then
      some (.ok .falseVal)
    else if csp.vars.all fun v => ((make_arc_consistent csp (some d) seed) v).length = 1 then
      some (.ok (.sol (csp.vars.map fun v =>
        (v, select_first ((make_arc_consistent csp (some d) seed) v)))))
    else
      match select_most_constrained_var csp
          (csp.vars.filter fun x =>
            1 < ((make_arc_consistent csp (some d) seed) x).length) with
      | .error e => some (.error e)
      | .ok none => some (.ok .noneVal)
      | .ok (some var) =>
        match solveFuel fuel csp
            (copy_with_assign (make_arc_consistent csp (some d) seed) (some var)
              (partition_domain ((make_arc_consistent csp (some d) seed) var)).1)
            (some (new_to_do csp var none)) with
        | none => none
        | some (.error e) => some (.error e)
        | some (.ok r1) =>
          if r1.truthy then some (.ok r1)
          else solveFuel fuel csp
            (copy_with_assign (make_arc_consistent csp (some d) seed) (some var)
              (partition_domain ((make_arc_consistent csp (some d) seed) var)).2)
            (some (new_to_do csp var none))

/-- `Solver.solve_recursive_ds` with the defaulting of `domains=None` and
the fuel bound supplied; the fallback value of `getD` is never used
(`solveFuel` is total at this fuel, proved below). -/
def solve_recursive_ds (csp : CSP) (domains : Option Domains)
    (to_do : Option (List Arc)) : Except String SolveResult :=
  let d := domains.getD csp.domains
  (solveFuel (solveMeasure csp d) csp d to_do).getD (.ok .noneVal)

/-! ## The Sudoku adapter -/

/-- `row_to_indices(row)`. -/
def row_to_indices (row : ℕ) : List Var :=
  (List.range 9).map fun col => (row, col)

/-- `col_to_indices(col)`. -/
def col_to_indices (col : ℕ) : List Var :=
  (List.range 9).map fun row => (row, col)

/-- `box_to_indices(box)`. -/
def box_to_indices (box : ℕ) : List Var :=
  (List.range 3).flatMap fun dr =>
    (List.range 3).map fun dc => ((box / 3) * 3 + dr, (box % 3) * 3 + dc)

/-- The 27 constraints of `Sudoku.__init__`: 9 rows, 9 columns, 9 boxes. -/
def sudokuConstraints : List Constraint :=
  ((List.range 9).map fun i => ⟨row_to_indices i⟩)
    ++ ((List.range 9).map fun j => ⟨col_to_indices j⟩)
    ++ ((List.range 9).map fun q => ⟨box_to_indices q⟩)

/-- `puzzle[i][j]` (0 outside the grid; in-range accesses only are used). -/
def cellOf (pz : Grid) (p : Var) : ℕ :=
  (pz.getD p.1 []).getD p.2 0

/-- The keys of the domain dictionary of `Sudoku.__init__`, in insertion
(row-major) order. -/
def sudokuVars (pz : Grid) : List Var :=
  (List.range pz.length).flatMap fun r =>
    (List.range (pz.getD r []).length).map fun c => (r, c)

/-- The domain dictionary of `Sudoku.__init__`: `[1..9]` for unknown cells,
the singleton of the given digit for pre-filled cells. -/
def sudokuDomains (pz : Grid) : Domains := fun v =>
  if cellOf pz v ≠ 0 then [cellOf pz v] else (List.range 9).map fun x => x + 1

/-- The CSP built by `Sudoku.__init__`.  The Python variable set is
iterated in an arbitrary but fixed order; the dictionary key order is used
as the modelled iteration order. -/
def sudokuCSP (pz : Grid) : CSP :=
  ⟨sudokuVars pz, sudokuDomains pz, sudokuConstraints⟩

/-- The root call `solver.solve_recursive_ds()` of `Sudoku.solve`. -/
def solve_entry (pz : Grid) : Except String SolveResult :=
  solve_recursive_ds (sudokuCSP pz) none none

/-- `self.ans[pos[0]][pos[1]] = val` on a list-of-lists answer grid. -/
def set2d (g : Grid) (p : Var) (x : ℕ) : Grid :=
  g.set p.1 ((g.getD p.1 []).set p.2 x)

/-- `self.ans = [[0 for a in range(10)] for b in range(10)]`: note the
10×10 dimensions in the source. -/
def emptyAns : Grid :=
  List.replicate 10 (List.replicate 10 0)

/-- The `for pos, val in solutions.items(): ans[pos[0]][pos[1]] = val`
loop of `Sudoku.solve`. -/
def assemble (sol : List (Var × ℕ)) : Grid :=
  sol.foldl (fun g pv => set2d g pv.1 pv.2) emptyAns

/-- `Sudoku.solve`: run the search and write the solution dict into the
answer grid.  When the search returns `False` or `None`, the attribute
access `solutions.items()` raises `AttributeError`. -/
def Sudoku.solve (pz : Grid) : Except String Grid :=
  match solve_entry pz with
  | .error e => .error e
  | .ok (.sol a) => .ok (assemble a)
  | .ok .falseVal => .error "AttributeError: bool object has no attribute items"
  | .ok .noneVal => .error "AttributeError: NoneType object has no attribute items"

/-! ## Well-formedness -/

/-- Well-formedness of a CSP as constructed by the program: distinct
variables, duplicate-free scopes, and scopes inside the variable set. -/
def WfCSP (csp : CSP) : Prop :=
  csp.vars.Nodup ∧
    ∀ c ∈ csp.constraints, c.scope.Nodup ∧ ∀ v ∈ c.scope, v ∈ csp.vars

instance : DecidablePred WfCSP := fun csp => by
  unfold WfCSP; infer_instance

/-- The standard 81 cells in row-major order. -/
def stdVars : List Var :=
  (List.range 9).flatMap fun r => (List.range 9).map fun c => (r, c)

/-- A well-shaped 9×9 puzzle. -/
def Wf9 (pz : Grid) : Prop :=
  pz.length = 9 ∧ ∀ r ∈ pz, r.length = 9

instance : DecidablePred Wf9 := fun pz => by
  unfold Wf9; infer_instance

/-- The spec-side notion of a supporting combination: a total assignment
that takes values from the current domains on `others` and agrees with
`env` everywhere else, and satisfies the constraint. -/
def IsSupport (d : Domains) (c : Constraint) (env : Var → ℕ)
    (others : List Var) (τ : Var → ℕ) : Prop :=
  (∀ u ∈ others, τ u ∈ d u) ∧ (∀ u, u ∉ others → τ u = env u) ∧ c.holds τ = true

/-- Arc consistency of one arc: the revise step keeps the whole domain. -/
def ArcCons (d : Domains) (a : Arc) : Prop :=
  revise d a.2 a.1 = d a.1

/-- The value a grid holds at a position (0 outside the grid). -/
def gridAt (g : Grid) (p : Var) : ℕ :=
  (g.getD p.1 []).getD p.2 0

/-- Every cell of the 9×9 grid is pre-filled. -/
def AllGiven (pz : Grid) : Prop := ∀ v ∈ stdVars, cellOf pz v ≠ 0

instance : DecidablePred AllGiven := fun pz => by
  unfold AllGiven; infer_instance

/-- The grid satisfies all 27 all-different constraints. -/
def GridValid (pz : Grid) : Prop :=
  ∀ c ∈ sudokuConstraints, is_all_unique (cellOf pz) c.scope = true

instance : DecidablePred GridValid := fun pz => by
  unfold GridValid; infer_instance

/-! ## Concrete fixtures used by witnesses and counterexamples -/

/-- A complete valid Sudoku grid. -/
def pzFull : Grid :=
  [[1,2,3,4,5,6,7,8,9],
   [4,5,6,7,8,9,1,2,3],
   [7,8,9,1,2,3,4,5,6],
   [2,3,1,5,6,4,8,9,7],
   [5,6,4,8,9,7,2,3,1],
   [8,9,7,2,3,1,5,6,4],
   [3,1,2,6,4,5,9,7,8],
   [6,4,5,9,7,8,3,1,2],
   [9,7,8,3,1,2,6,4,5]]

/-- The assignment dict returned by the search on `pzFull`. -/
def solFull : List (Var × ℕ) := stdVars.map fun v => (v, cellOf pzFull v)

/-- The answer grid `Sudoku.solve` builds from `pzFull`: a 10×10 grid with
a zero 10th column and 10th row. -/
def ansFull : Grid := assemble solFull

/-- A 9×9 puzzle whose first row holds the duplicate givens 1, 1. -/
def pzDup : Grid :=
  [[1,1,0,0,0,0,0,0,0]] ++ List.replicate 8 (List.replicate 9 0)

/-- A three-variable CSP whose propagation leaves (0,0) with a smaller
domain than (0,1), while the initial sizes of both are equal.  The `vars`
list records the order in which CPython iterates the set of the three
key tuples (0,0), (0,1), (0,2): their hashes occupy slots 7, 0 and 2 of
the 8-slot table, so iteration yields (0,1), then (0,2), then (0,0) —
deterministically, as integer-tuple hashes are unsalted. -/
def c4csp : CSP :=
  ⟨[(0,1), (0,2), (0,0)],
   fun v => if v = (0,2) then [2] else [1,2,3],
   [⟨[(0,0), (0,2)]⟩]⟩

/-- A two-variable CSP with one all-different constraint over two
singleton domains holding the same value: not arc-consistent. -/
def c5csp : CSP :=
  ⟨[(0,0), (0,1)], fun _ => [1], [⟨[(0,0), (0,1)]⟩]⟩

/-- A constraint-free CSP with exactly one multi-valued variable. -/
def cspC10 : CSP :=
  ⟨[(0,0), (0,1)], fun v => if v = (0,0) then [1,2] else [5], []⟩

/-- A two-position domain map for exercising the revise
characterization. -/
def c6d : Domains := fun _ => [1, 2]

/-- A two-position all-different constraint. -/
def c6c : Constraint := ⟨[(0,0), (0,1)]⟩

/-! ## Basic lemmas about `is_all_unique` and `any_holds` -/

theorem is_all_unique_iff {env : Var → ℕ} {l : List Var} :
    is_all_unique env l = true ↔
      ∀ p1 ∈ l, ∀ p2 ∈ l, p1 ≠ p2 → env p1 ≠ env p2 := by
  simp only [is_all_unique, List.all_eq_true, Bool.or_eq_true, decide_eq_true_eq]
  constructor
  · intro h p1 h1 p2 h2 hne
    rcases h p1 h1 p2 h2 with h | h
    · exact absurd h hne
    · exact h
  · intro h p1 h1 p2 h2
    by_cases hp : p1 = p2
    · exact Or.inl hp
    · exact Or.inr (h p1 h1 p2 h2 hp)

theorem is_all_unique_congr {env1 env2 : Var → ℕ} {l : List Var}
    (h : ∀ p ∈ l, env1 p = env2 p) :
    is_all_unique env1 l = is_all_unique env2 l := by
  rw [Bool.eq_iff_iff, is_all_unique_iff, is_all_unique_iff]
  constructor <;> intro hp p1 h1 p2 h2 hne
  · rw [← h p1 h1, ← h p2 h2]; exact hp p1 h1 p2 h2 hne
  · rw [h p1 h1, h p2 h2]; exact hp p1 h1 p2 h2 hne

theorem is_all_unique_of_sub {env : Var → ℕ} {l l' : List Var}
    (hsub : ∀ p ∈ l', p ∈ l) (h : is_all_unique env l = true) :
    is_all_unique env l' = true := by
  rw [is_all_unique_iff] at h ⊢
  exact fun p1 h1 p2 h2 hne => h p1 (hsub p1 h1) p2 (hsub p2 h2) hne

theorem holds_congr {c : Constraint} {env1 env2 : Var → ℕ}
    (h : ∀ p ∈ c.scope, env1 p = env2 p) :
    c.holds env1 = c.holds env2 :=
  is_all_unique_congr h

theorem any_holds_congr {d1 d2 : Domains} {c : Constraint} {env : Var → ℕ}
    {rest assigned : List Var} (h : ∀ u ∈ rest, d1 u = d2 u) :
    any_holds d1 c env rest assigned = any_holds d2 c env rest assigned := by
  induction rest generalizing env assigned with
  | nil => rfl
  | cons cur rs ih =>
    simp only [any_holds]
    rw [h cur (List.mem_cons_self cur rs)]
    rw [Bool.eq_iff_iff, List.any_eq_true, List.any_eq_true]
    have hrs : ∀ env2 asg, any_holds d1 c env2 rs asg = any_holds d2 c env2 rs asg :=
      fun env2 asg => ih fun u hu => h u (List.mem_cons_of_mem cur hu)
    constructor <;> rintro ⟨val, hval, hb⟩
    · exact ⟨val, hval, by rw [← hrs]; exact hb⟩
    · exact ⟨val, hval, by rw [hrs]; exact hb⟩


/-- `any_holds` computes exactly the existence of a supporting
combination, for duplicate-free position lists inside the scope: the
`is_all_unique` pruning never cuts off a combination that satisfies the
(all-different) constraint. -/
theorem any_holds_iff_exists {d : Domains} {c : Constraint} :
    ∀ (rest assigned : List Var) (env : Var → ℕ),
    rest.Nodup → (∀ u ∈ rest, u ∉ assigned) →
    (∀ u ∈ rest, u ∈ c.scope) → (∀ u ∈ assigned, u ∈ c.scope) →
    (any_holds d c env rest assigned = true ↔ ∃ τ, IsSupport d c env rest τ) := by
  intro rest
  induction rest with
  | nil =>
    intro assigned env _ _ _ _
    constructor
    · intro h
      exact ⟨env, fun u hu => absurd hu (List.not_mem_nil u), fun _ _ => rfl, h⟩
    · rintro ⟨τ, _, hout, hh⟩
      have hte : τ = env := funext fun u => hout u (List.not_mem_nil u)
      show c.holds env = true
      rwa [hte] at hh
  | cons cur rs ih =>
    intro assigned env hnd hdisj hsub hsubA
    have hcurrs : cur ∉ rs := (List.nodup_cons.mp hnd).1
    have hndrs : rs.Nodup := (List.nodup_cons.mp hnd).2
    have hcurA : cur ∉ assigned := hdisj cur (List.mem_cons_self cur rs)
    simp only [any_holds, List.any_eq_true, Bool.and_eq_true]
    constructor
    · rintro ⟨val, hval, huniq, hrec⟩
      have hIH := (ih (cur :: assigned) (Function.update env cur val) hndrs
        (fun u hu => by
          simp only [List.mem_cons, not_or]
          exact ⟨fun h => hcurrs (h ▸ hu), hdisj u (List.mem_cons_of_mem cur hu)⟩)
        (fun u hu => hsub u (List.mem_cons_of_mem cur hu))
        (by
          intro u hu
          rcases List.mem_cons.mp hu with h | h
          · exact h ▸ hsub cur (List.mem_cons_self cur rs)
          · exact hsubA u h)).mp hrec
      rcases hIH with ⟨τ, hin, hout, hh⟩
      refine ⟨τ, ?_, ?_, hh⟩
      · intro u hu
        rcases List.mem_cons.mp hu with h | h
        · subst h
          have : τ u = Function.update env u val u := hout u hcurrs
          rw [this, Function.update_same]
          exact hval
        · exact hin u h
      · intro u hu
        simp only [List.mem_cons, not_or] at hu
        have : τ u = Function.update env cur val u := hout u hu.2
        rw [this, Function.update_noteq hu.1]
    · rintro ⟨τ, hin, hout, hh⟩
      refine ⟨τ cur, hin cur (List.mem_cons_self cur rs), ?_, ?_⟩
      · -- the pruning test holds for the witnessing combination
        have hτuniq : is_all_unique τ (cur :: assigned) = true := by
          refine is_all_unique_of_sub ?_ hh
          intro p hp
          rcases List.mem_cons.mp hp with h | h
          · exact h ▸ hsub cur (List.mem_cons_self cur rs)
          · exact hsubA p h
        have hcong : ∀ p ∈ cur :: assigned,
            Function.update env cur (τ cur) p = τ p := by
          intro p hp
          rcases List.mem_cons.mp hp with h | h
          · subst h; rw [Function.update_same]
          · have hpc : p ≠ cur := fun hpc => hcurA (hpc ▸ h)
            rw [Function.update_noteq hpc]
            refine (hout p ?_).symm
            simp only [List.mem_cons, not_or]
            exact ⟨hpc, fun hpr => hdisj p (List.mem_cons_of_mem cur hpr) h⟩
        rw [is_all_unique_congr hcong]
        exact hτuniq
      · refine (ih (cur :: assigned) (Function.update env cur (τ cur)) hndrs
          (fun u hu => by
            simp only [List.mem_cons, not_or]
            exact ⟨fun h => hcurrs (h ▸ hu), hdisj u (List.mem_cons_of_mem cur hu)⟩)
          (fun u hu => hsub u (List.mem_cons_of_mem cur hu))
          (by
            intro u hu
            rcases List.mem_cons.mp hu with h | h
            · exact h ▸ hsub cur (List.mem_cons_self cur rs)
            · exact hsubA u h)).mpr ⟨τ, ?_, ?_, hh⟩
        · exact fun u hu => hin u (List.mem_cons_of_mem cur hu)
        · intro u hu
          by_cases hc : u = cur
          · subst hc; rw [Function.update_same]
          · rw [Function.update_noteq hc]
            exact hout u (by simp only [List.mem_cons, not_or]; exact ⟨hc, hu⟩)

/-! ## Supported values and arc consistency -/

theorem mem_scopeOthers {c : Constraint} {v u : Var} :
    u ∈ scopeOthers c v ↔ u ∈ c.scope ∧ u ≠ v := by
  simp [scopeOthers]

theorem supported_congr {d1 d2 : Domains} {c : Constraint} {v : Var} {val : ℕ}
    (h : ∀ u ∈ scopeOthers c v, d1 u = d2 u) :
    supported d1 c v val = supported d2 c v val :=
  any_holds_congr h

theorem supported_iff_exists {d : Domains} {c : Constraint} {v : Var} {val : ℕ}
    (hnd : c.scope.Nodup) :
    supported d c v val = true ↔
      ∃ τ, IsSupport d c (Function.update baseEnv v val) (scopeOthers c v) τ :=
  any_holds_iff_exists (scopeOthers c v) [] _ (hnd.filter _)
    (fun u _ => List.not_mem_nil u) (fun u hu => (mem_scopeOthers.mp hu).1)
    (fun u h => absurd h (List.not_mem_nil u))


theorem arcCons_iff {d : Domains} {v : Var} {c : Constraint} :
    ArcCons d (v, c) ↔ ∀ val ∈ d v, supported d c v val = true := by
  unfold ArcCons revise
  exact List.filter_eq_self

theorem revise_sublist (d : Domains) (c : Constraint) (v : Var) :
    List.Sublist (revise d c v) (d v) :=
  List.filter_sublist _

/-- Updating the domain of `v` itself does not change the support test for
arcs of `v`: the test only reads the domains of the other scope
variables. -/
theorem supported_update_self {d : Domains} {c : Constraint} {v : Var}
    {nd : List ℕ} {val : ℕ} :
    supported (Function.update d v nd) c v val = supported d c v val :=
  supported_congr fun u hu =>
    Function.update_noteq (mem_scopeOthers.mp hu).2 _ _

/-- Updating the domain of a variable outside the scope of `c` does not
change the support test for arcs of `c`. -/
theorem supported_update_notmem {d : Domains} {c : Constraint} {v w : Var}
    {nd : List ℕ} {val : ℕ} (hv : v ∉ c.scope) :
    supported (Function.update d v nd) c w val = supported d c w val := by
  refine supported_congr fun u hu => ?_
  have huv : u ≠ v := by
    intro h
    subst h
    exact hv (mem_scopeOthers.mp hu).1
  exact Function.update_noteq huv _ _

/-- The central preservation fact behind generalized arc consistency:
revising `v` against `c` removes only values of `v` without support, and
any supporting combination for a value of a sibling variable `w` of the
same constraint contains a supported value for `v`; hence the support of
the sibling survives the shrink of the domain of `v`. -/
theorem supported_update_revise {d : Domains} {c : Constraint} {v w : Var}
    {val : ℕ} (hnd : c.scope.Nodup) (hv : v ∈ c.scope) (hwv : w ≠ v)
    (hval : val ∈ d w) (hs : supported d c w val = true) :
    supported (Function.update d v (revise d c v)) c w val = true := by
  rcases (supported_iff_exists hnd).mp hs with ⟨τ, hin, hout, hh⟩
  have hvw : v ≠ w := fun h => hwv h.symm
  have hvmem : v ∈ scopeOthers c w := mem_scopeOthers.mpr ⟨hv, hvw⟩
  -- the value the combination picks for `v` is itself supported
  have hτv : τ v ∈ d v := hin v hvmem
  have hsuppv : supported d c v (τ v) = true := by
    refine (supported_iff_exists hnd).mpr ?_
    refine ⟨fun u => if u ∈ scopeOthers c v then τ u
      else Function.update baseEnv v (τ v) u, ?_, ?_, ?_⟩
    · intro u hu
      dsimp only
      rw [if_pos hu]
      by_cases huw : u = w
      · subst huw
        have hτw : τ u = Function.update baseEnv u val u := by
          refine hout u ?_
          intro hmem
          exact (mem_scopeOthers.mp hmem).2 rfl
        rw [hτw, Function.update_same]
        exact hval
      · exact hin u (mem_scopeOthers.mpr ⟨(mem_scopeOthers.mp hu).1, huw⟩)
    · intro u hu
      dsimp only
      rw [if_neg hu]
    · rw [← hh]
      refine holds_congr fun p hp => ?_
      dsimp only
      by_cases hpv : p ∈ scopeOthers c v
      · rw [if_pos hpv]
      · rw [if_neg hpv]
        have hpveq : p = v := by
          by_contra hne
          exact hpv (mem_scopeOthers.mpr ⟨hp, hne⟩)
        subst hpveq
        rw [Function.update_same]
  have hτv' : τ v ∈ revise d c v := by
    unfold revise
    exact List.mem_filter.mpr ⟨hτv, hsuppv⟩
  refine (supported_iff_exists hnd).mpr ⟨τ, ?_, hout, hh⟩
  intro u hu
  by_cases huv : u = v
  · subst huv
    rw [Function.update_same]
    exact hτv'
  · rw [Function.update_noteq huv]
    exact hin u hu

/-! ## The arc-consistency work loop -/

theorem mem_allArcs {csp : CSP} {a : Arc} :
    a ∈ allArcs csp ↔ a.2 ∈ csp.constraints ∧ a.1 ∈ a.2.scope := by
  obtain ⟨v, c⟩ := a
  simp only [allArcs, List.mem_dedup, List.mem_flatMap, List.mem_map]
  constructor
  · rintro ⟨c2, hc2, v2, hv2, heq⟩
    obtain ⟨rfl, rfl⟩ := Prod.mk.injEq .. ▸ heq
    exact ⟨hc2, hv2⟩
  · rintro ⟨hc, hv⟩
    exact ⟨c, hc, v, hv, rfl⟩

theorem mem_new_to_do {csp : CSP} {var : Var} {const : Option Constraint}
    {a : Arc} :
    a ∈ new_to_do csp var const ↔
      a ∈ allArcs csp ∧ var ∈ a.2.scope ∧ some a.2 ≠ const ∧ a.1 ≠ var := by
  simp only [new_to_do, List.mem_filter, Bool.and_eq_true, decide_eq_true_eq]
  tauto

theorem new_to_do_sub {csp : CSP} {var : Var} {const : Option Constraint} :
    ∀ a ∈ new_to_do csp var const, a ∈ allArcs csp :=
  fun a ha => (mem_new_to_do.mp ha).1

theorem sublist_length_lt {l1 l2 : List ℕ} (h : List.Sublist l1 l2)
    (hne : l1 ≠ l2) : l1.length < l2.length :=
  lt_of_le_of_ne h.length_le fun he => hne (h.eq_of_length he)

theorem totalSize_le_of_sublist {csp : CSP} {d1 d2 : Domains}
    (h : ∀ v, List.Sublist (d1 v) (d2 v)) :
    totalSize csp d1 ≤ totalSize csp d2 :=
  Finset.sum_le_sum fun v _ => (h v).length_le

theorem totalSize_update_lt {csp : CSP} {d : Domains} {v : Var}
    (hv : v ∈ csp.vars) {nd : List ℕ} (hlt : nd.length < (d v).length) :
    totalSize csp (Function.update d v nd) < totalSize csp d := by
  have hvf : v ∈ csp.vars.toFinset := List.mem_toFinset.mpr hv
  unfold totalSize
  rw [Finset.sum_eq_sum_diff_singleton_add hvf
    fun x => (Function.update d v nd x).length,
    Finset.sum_eq_sum_diff_singleton_add hvf fun x => (d x).length]
  have hrest : ∑ x ∈ csp.vars.toFinset \ {v}, (Function.update d v nd x).length
      = ∑ x ∈ csp.vars.toFinset \ {v}, (d x).length := by
    refine Finset.sum_congr rfl fun x hx => ?_
    have hxv : x ≠ v := (Finset.mem_sdiff.mp hx).2 ∘ Finset.mem_singleton.mpr
    rw [Function.update_noteq hxv]
  rw [hrest, Function.update_same]
  exact Nat.add_lt_add_left hlt _

theorem macFuel_some_sublist :
    ∀ (fuel : ℕ) (csp : CSP) (d : Domains) (t : List Arc) (r : Domains),
    macFuel fuel csp d t = some r → ∀ v, List.Sublist (r v) (d v) := by
  intro fuel
  induction fuel with
  | zero => intro csp d t r h; exact absurd h (by simp [macFuel])
  | succ n ih =>
    intro csp d t r h v
    match t with
    | [] =>
      obtain rfl : d = r := Option.some.injEq .. ▸ h
      exact List.Sublist.refl _
    | (w, c) :: rest =>
      by_cases heq : revise d c w = d w
      · rw [macFuel, if_pos heq] at h
        exact ih csp d rest r h v
      · rw [macFuel, if_neg heq] at h
        refine (ih csp _ _ r h v).trans ?_
        by_cases hvw : v = w
        · subst hvw
          rw [Function.update_same]
          exact revise_sublist d c v
        · rw [Function.update_noteq hvw]

/-- Termination of the `while to_do:` loop of `make_arc_consistent`: the
fuel bound `macMeasure` always suffices when the queue holds program arcs
and scopes stay inside the variable set. -/
theorem macFuel_isSome :
    ∀ (fuel : ℕ) (csp : CSP) (d : Domains) (t : List Arc),
    (∀ c ∈ csp.constraints, ∀ v ∈ c.scope, v ∈ csp.vars) →
    (∀ a ∈ t, a ∈ allArcs csp) →
    macMeasure csp d t ≤ fuel → (macFuel fuel csp d t).isSome := by
  intro fuel
  induction fuel with
  | zero =>
    intro csp d t _ _ hm
    exact absurd hm (by simp [macMeasure])
  | succ n ih =>
    intro csp d t hwf ht hm
    match t with
    | [] => simp [macFuel]
    | (v, c) :: rest =>
      have hvc : (v, c) ∈ allArcs csp := ht _ (List.mem_cons_self _ _)
      have hc : c ∈ csp.constraints := (mem_allArcs.mp hvc).1
      have hv : v ∈ c.scope := (mem_allArcs.mp hvc).2
      have hrest : ∀ a ∈ rest, a ∈ allArcs csp :=
        fun a ha => ht a (List.mem_cons_of_mem _ ha)
      by_cases heq : revise d c v = d v
      · rw [macFuel, if_pos heq]
        refine ih csp d rest hwf hrest ?_
        have : macMeasure csp d rest + 1 = macMeasure csp d ((v, c) :: rest) := by
          simp [macMeasure, List.length_cons]
          ring
        omega
      · rw [macFuel, if_neg heq]
        set A := (allArcs csp).length with hA
        set nd := revise d c v with hnd
        set t2 := rest ++ (new_to_do csp v (some c)).filter fun a => a ∉ rest
          with ht2
        refine ih csp (Function.update d v nd) t2 hwf ?_ ?_
        · intro a ha
          rcases List.mem_append.mp ha with h | h
          · exact hrest a h
          · exact new_to_do_sub a (List.mem_filter.mp h).1
        · have hlt : nd.length < (d v).length :=
            sublist_length_lt (revise_sublist d c v) heq
          have hTS : totalSize csp (Function.update d v nd) + 1 ≤ totalSize csp d :=
            totalSize_update_lt (hwf c hc v hv) hlt
          have ht2len : t2.length ≤ rest.length + A := by
            rw [ht2, List.length_append]
            have h1 : ((new_to_do csp v (some c)).filter fun a => a ∉ rest).length
                ≤ (new_to_do csp v (some c)).length := List.length_filter_le _ _
            have h2 : (new_to_do csp v (some c)).length ≤ A := by
              rw [hA]
              exact List.length_filter_le _ _
            omega
          have hmul : totalSize csp (Function.update d v nd) * (A + 1) + (A + 1)
              ≤ totalSize csp d * (A + 1) := by
            calc totalSize csp (Function.update d v nd) * (A + 1) + (A + 1)
                = (totalSize csp (Function.update d v nd) + 1) * (A + 1) := by ring
              _ ≤ totalSize csp d * (A + 1) := Nat.mul_le_mul_right _ hTS
          have hmacm : macMeasure csp d ((v, c) :: rest)
              = totalSize csp d * (A + 1) + (rest.length + 1) + 1 := by
            simp [macMeasure, List.length_cons]
          have hgoal : macMeasure csp (Function.update d v nd) t2
              = totalSize csp (Function.update d v nd) * (A + 1) + t2.length + 1 := by
            simp [macMeasure]
          omega

/-- If every arc of the program is already consistent, the work loop pops
all queued arcs without any change and returns the input domains. -/
theorem macFuel_of_allCons :
    ∀ (t : List Arc) (fuel : ℕ) (csp : CSP) (d : Domains),
    (∀ a ∈ t, a ∈ allArcs csp) → (∀ a ∈ allArcs csp, ArcCons d a) →
    t.length < fuel → macFuel fuel csp d t = some d := by
  intro t
  induction t with
  | nil =>
    intro fuel csp d _ _ hf
    match fuel, hf with
    | n + 1, _ => rfl
  | cons a rest ih =>
    intro fuel csp d ht hcons hf
    obtain ⟨v, c⟩ := a
    match fuel, hf with
    | n + 1, hf =>
      have hAC : ArcCons d (v, c) := hcons _ (ht _ (List.mem_cons_self _ _))
      rw [macFuel, if_pos (show revise d c v = d v from hAC)]
      refine ih n csp d (fun a ha => ht a (List.mem_cons_of_mem _ ha)) hcons ?_
      have := List.length_cons (v, c) rest
      omega

/-- The generalized arc-consistency invariant: starting from a state in
which every program arc outside the queue is consistent, the work loop
ends with every program arc consistent. -/
theorem macFuel_allCons :
    ∀ (fuel : ℕ) (csp : CSP) (d : Domains) (t : List Arc) (r : Domains),
    (∀ c ∈ csp.constraints, c.scope.Nodup) →
    (∀ a ∈ t, a ∈ allArcs csp) →
    (∀ a ∈ allArcs csp, a ∉ t → ArcCons d a) →
    macFuel fuel csp d t = some r →
    ∀ a ∈ allArcs csp, ArcCons r a := by
  intro fuel
  induction fuel with
  | zero => intro csp d t r _ _ _ h; exact absurd h (by simp [macFuel])
  | succ n ih =>
    intro csp d t r hwfs ht hinv h
    match t with
    | [] =>
      obtain rfl : d = r := Option.some.injEq .. ▸ h
      exact fun a ha => hinv a ha (List.not_mem_nil a)
    | (v, c) :: rest =>
      have hvc : (v, c) ∈ allArcs csp := ht _ (List.mem_cons_self _ _)
      have hc : c ∈ csp.constraints := (mem_allArcs.mp hvc).1
      have hv : v ∈ c.scope := (mem_allArcs.mp hvc).2
      have hnd : c.scope.Nodup := hwfs c hc
      have hrest : ∀ a ∈ rest, a ∈ allArcs csp :=
        fun a ha => ht a (List.mem_cons_of_mem _ ha)
      by_cases heq : revise d c v = d v
      · rw [macFuel, if_pos heq] at h
        refine ih csp d rest r hwfs hrest ?_ h
        intro a ha hna
        by_cases hav : a = (v, c)
        · exact hav ▸ heq
        · refine hinv a ha ?_
          simp only [List.mem_cons, not_or]
          exact ⟨hav, hna⟩
      · rw [macFuel, if_neg heq] at h
        refine ih csp (Function.update d v (revise d c v))
          (rest ++ (new_to_do csp v (some c)).filter fun a => a ∉ rest) r hwfs ?_ ?_ h
        · intro a ha
          rcases List.mem_append.mp ha with h1 | h1
          · exact hrest a h1
          · exact new_to_do_sub a (List.mem_filter.mp h1).1
        · rintro ⟨w, c2⟩ ha hna
          have hnrest : (w, c2) ∉ rest := fun hr => hna (List.mem_append.mpr (Or.inl hr))
          have hnnew : (w, c2) ∉ new_to_do csp v (some c) := by
            intro hnew
            exact hna (List.mem_append.mpr (Or.inr (List.mem_filter.mpr
              ⟨hnew, decide_eq_true hnrest⟩)))
          have hw : w ∈ c2.scope := (mem_allArcs.mp ha).2
          rw [arcCons_iff]
          by_cases hwv : w = v
          · subst hwv
            intro val hval
            rw [Function.update_same] at hval
            rw [supported_update_self]
            by_cases hc2 : c2 = c
            · subst hc2
              exact (List.mem_filter.mp hval).2
            · have hAC : ArcCons d (w, c2) := by
                refine hinv (w, c2) ha ?_
                simp only [List.mem_cons, not_or]
                refine ⟨?_, hnrest⟩
                intro habs
                exact hc2 (congrArg Prod.snd habs)
              refine arcCons_iff.mp hAC val ?_
              exact (revise_sublist d c w).subset hval
          · intro val hval
            rw [Function.update_noteq hwv] at hval
            by_cases hvscope : v ∈ c2.scope
            · by_cases hc2 : c2 = c
              · subst hc2
                have hAC : ArcCons d (w, c2) := by
                  refine hinv (w, c2) ha ?_
                  simp only [List.mem_cons, not_or]
                  refine ⟨?_, hnrest⟩
                  intro habs
                  exact hwv (congrArg Prod.fst habs)
                exact supported_update_revise hnd hvscope hwv hval
                  (arcCons_iff.mp hAC val hval)
              · exact absurd (mem_new_to_do.mpr ⟨ha, hvscope, by
                  simp only [ne_eq, Option.some.injEq]
                  exact hc2, hwv⟩) hnnew
            · have hAC : ArcCons d (w, c2) := by
                refine hinv (w, c2) ha ?_
                simp only [List.mem_cons, not_or]
                refine ⟨?_, hnrest⟩
                intro habs
                exact hwv (congrArg Prod.fst habs)
              rw [supported_update_notmem hvscope]
              exact arcCons_iff.mp hAC val hval

/-! ## `make_arc_consistent` wrapper lemmas -/

theorem make_arc_consistent_eq (csp : CSP) (orig : Option Domains)
    (td : Option (List Arc)) :
    make_arc_consistent csp orig td
      = (macFuel (macMeasure csp (orig.getD csp.domains) (td.getD (allArcs csp)))
          csp (orig.getD csp.domains) (td.getD (allArcs csp))).getD
          (orig.getD csp.domains) := rfl

/-- Propagation never grows a domain: each result domain is a sublist of
the corresponding input domain. -/
theorem make_arc_consistent_sublist (csp : CSP) (orig : Option Domains)
    (td : Option (List Arc)) (v : Var) :
    List.Sublist ((make_arc_consistent csp orig td) v)
      ((orig.getD csp.domains) v) := by
  rw [make_arc_consistent_eq]
  cases hmac : macFuel (macMeasure csp (orig.getD csp.domains)
      (td.getD (allArcs csp))) csp (orig.getD csp.domains)
      (td.getD (allArcs csp)) with
  | none => exact List.Sublist.refl _
  | some r => exact macFuel_some_sublist _ csp _ _ r hmac v

/-- After `make_arc_consistent`, every program arc is consistent, provided
every program arc outside the seed queue was consistent on entry. -/
theorem make_arc_consistent_allCons {csp : CSP} {d : Domains}
    {td : Option (List Arc)}
    (hwfv : ∀ c ∈ csp.constraints, ∀ v ∈ c.scope, v ∈ csp.vars)
    (hwfs : ∀ c ∈ csp.constraints, c.scope.Nodup)
    (ht : ∀ a ∈ td.getD (allArcs csp), a ∈ allArcs csp)
    (hinv : ∀ a ∈ allArcs csp, a ∉ td.getD (allArcs csp) → ArcCons d a) :
    ∀ a ∈ allArcs csp, ArcCons (make_arc_consistent csp (some d) td) a := by
  have hiss := macFuel_isSome (macMeasure csp d (td.getD (allArcs csp))) csp d
    (td.getD (allArcs csp)) hwfv ht le_rfl
  obtain ⟨r, hr⟩ := Option.isSome_iff_exists.mp hiss
  have hres : make_arc_consistent csp (some d) td = r := by
    rw [make_arc_consistent_eq]
    simp only [Option.getD_some]
    rw [hr]
    rfl
  rw [hres]
  exact macFuel_allCons _ csp d _ r hwfs ht hinv hr

/-- On an already arc-consistent domain map, `make_arc_consistent` is the
identity, whatever (program) queue it is seeded with. -/
theorem make_arc_consistent_of_allCons {csp : CSP} {d : Domains}
    {td : Option (List Arc)}
    (ht : ∀ a ∈ td.getD (allArcs csp), a ∈ allArcs csp)
    (hcons : ∀ a ∈ allArcs csp, ArcCons d a) :
    make_arc_consistent csp (some d) td = d := by
  have hlen : (td.getD (allArcs csp)).length
      < macMeasure csp d (td.getD (allArcs csp)) := by
    simp only [macMeasure]
    omega
  have hres := macFuel_of_allCons (td.getD (allArcs csp)) _ csp d ht hcons hlen
  rw [make_arc_consistent_eq]
  simp only [Option.getD_some]
  rw [hres]
  rfl

/-! ## `partition_domain` lemmas -/

theorem filter_not_mem_append {α : Type} [DecidableEq α] {l1 l2 : List α}
    (hd : List.Disjoint l1 l2) :
    (l1 ++ l2).filter (fun x => x ∉ l1) = l2 := by
  rw [List.filter_append]
  have h1 : l1.filter (fun x => x ∉ l1) = [] := by
    rw [List.filter_eq_nil_iff]
    intro a ha
    simpa using ha
  have h2 : l2.filter (fun x => x ∉ l1) = l2 := by
    rw [List.filter_eq_self]
    intro a ha
    simpa using fun hmem => hd hmem ha
  rw [h1, h2, List.nil_append]

/-- On a duplicate-free domain (as the set domains of the program are), the
partition is exactly (take ⌊n/2⌋, drop ⌊n/2⌋). -/
theorem partition_domain_eq_of_nodup {dom : List ℕ} (h : dom.Nodup) :
    partition_domain dom
      = (dom.take (dom.length / 2), dom.drop (dom.length / 2)) := by
  have htake : (dom.take (dom.length / 2)).dedup = dom.take (dom.length / 2) :=
    List.Nodup.dedup (h.sublist (List.take_sublist _ _))
  show ((dom.take (dom.length / 2)).dedup,
    dom.filter fun x => x ∉ (dom.take (dom.length / 2)).dedup) = _
  rw [htake]
  refine Prod.ext rfl ?_
  show dom.filter (fun x => x ∉ dom.take (dom.length / 2))
    = dom.drop (dom.length / 2)
  have hdisj : List.Disjoint (dom.take (dom.length / 2))
      (dom.drop (dom.length / 2)) := by
    refine List.disjoint_of_nodup_append ?_
    rw [List.take_append_drop]
    exact h
  calc dom.filter (fun x => x ∉ dom.take (dom.length / 2))
      = (dom.take (dom.length / 2) ++ dom.drop (dom.length / 2)).filter
          (fun x => x ∉ dom.take (dom.length / 2)) := by
        rw [List.take_append_drop]
    _ = dom.drop (dom.length / 2) := filter_not_mem_append hdisj

theorem partition_fst_sublist (dom : List ℕ) :
    List.Sublist (partition_domain dom).1 dom :=
  (List.dedup_sublist _).trans (List.take_sublist _ _)

theorem partition_snd_sublist (dom : List ℕ) :
    List.Sublist (partition_domain dom).2 dom :=
  List.filter_sublist _

/-- The first half always gets strictly shorter than the domain (no
duplicate-freeness needed); used for termination. -/
theorem partition_fst_length_lt {dom : List ℕ} (h : 1 ≤ dom.length) :
    (partition_domain dom).1.length < dom.length := by
  have h1 : (partition_domain dom).1.length ≤ (dom.take (dom.length / 2)).length :=
    (List.dedup_sublist _).length_le
  rw [List.length_take] at h1
  have : dom.length / 2 < dom.length := Nat.div_lt_self h one_lt_two
  omega

/-- The second half always gets strictly shorter than the domain when the
domain has at least two values; used for termination. -/
theorem partition_snd_length_lt {dom : List ℕ} (h : 2 ≤ dom.length) :
    (partition_domain dom).2.length < dom.length := by
  show (dom.filter fun x => x ∉ (dom.take (dom.length / 2)).dedup).length
    < dom.length
  refine List.length_filter_lt_length_iff_exists.mpr ?_
  have hne : dom ≠ [] := by
    intro habs
    rw [habs] at h
    simp at h
  have hhead : dom.head hne ∈ dom.take (dom.length / 2) := by
    obtain ⟨k, hk⟩ : ∃ k, dom.length / 2 = k + 1 :=
      ⟨dom.length / 2 - 1, by omega⟩
    have hcons : dom.take (dom.length / 2)
        = dom.head hne :: dom.tail.take k := by
      conv_lhs => rw [hk, ← List.head_cons_tail dom hne]
      rw [List.take_succ_cons]
    rw [hcons]
    exact List.mem_cons_self _ _
  refine ⟨dom.head hne, List.head_mem hne, ?_⟩
  simpa using List.mem_dedup.mpr hhead

/-- The full size/disjointness package of `partition_domain` on a
duplicate-free domain of at least two values. -/
theorem partition_domain_sizes {dom : List ℕ} (h : dom.Nodup)
    (h2 : 2 ≤ dom.length) :
    (partition_domain dom).1.length = dom.length / 2 ∧
    (partition_domain dom).2.length = dom.length - dom.length / 2 ∧
    (partition_domain dom).1 ≠ [] ∧ (partition_domain dom).2 ≠ [] ∧
    (∀ x ∈ (partition_domain dom).1, x ∉ (partition_domain dom).2) ∧
    (partition_domain dom).1.length < dom.length ∧
    (partition_domain dom).2.length < dom.length := by
  rw [partition_domain_eq_of_nodup h]
  dsimp only
  have hhalf : 1 ≤ dom.length / 2 := by omega
  have hlt : dom.length / 2 < dom.length := Nat.div_lt_self (by omega) one_lt_two
  have hdisj : List.Disjoint (dom.take (dom.length / 2))
      (dom.drop (dom.length / 2)) := by
    refine List.disjoint_of_nodup_append ?_
    rw [List.take_append_drop]
    exact h
  have hlen1 : (dom.take (dom.length / 2)).length = dom.length / 2 := by
    rw [List.length_take]
    omega
  have hlen2 : (dom.drop (dom.length / 2)).length = dom.length - dom.length / 2 :=
    List.length_drop _ _
  refine ⟨hlen1, hlen2, ?_, ?_, fun x hx1 hx2 => hdisj hx1 hx2, by omega, by omega⟩
  · intro habs
    rw [habs] at hlen1
    simp at hlen1
    omega
  · intro habs
    rw [habs] at hlen2
    simp at hlen2
    omega

/-! ## `select_most_constrained_var` and `solve_recursive_ds` lemmas -/

/-- A one-element iterator always raises `ValueError`. -/
theorem select_single (csp : CSP) (v : Var) :
    select_most_constrained_var csp [v]
      = .error "ValueError: min arg is an empty sequence" := rfl

/-- A selected variable is the first element of the iterator. -/
theorem select_some_eq_head {csp : CSP} {it : List Var} {var : Var}
    (h : select_most_constrained_var csp it = .ok (some var)) :
    ∃ rest, it = var :: rest := by
  match it with
  | [] => exact absurd h (by simp [select_most_constrained_var])
  | [v1] => exact absurd h (by simp [select_most_constrained_var])
  | v1 :: v2 :: rest =>
    rw [select_most_constrained_var] at h
    by_cases hc : (csp.domains v1).length
        = listMin ((v2 :: rest).map fun i => (csp.domains i).length)
    · rw [if_pos hc] at h
      obtain rfl : v1 = var := by
        have := Except.ok.injEq .. ▸ h
        exact Option.some.injEq .. ▸ this
      exact ⟨v2 :: rest, rfl⟩
    · rw [if_neg hc] at h
      exact absurd h (by simp)

/-- Narrowing the domain of the split variable to a subcollection keeps every
arc outside `new_to_do(var, None)` consistent. -/
theorem arcCons_update_of_not_new_to_do {csp : CSP} {nd : Domains} {var : Var}
    {domi : List ℕ} (hsubl : List.Sublist domi (nd var))
    (hcons : ∀ x ∈ allArcs csp, ArcCons nd x) :
    ∀ x ∈ allArcs csp, x ∉ new_to_do csp var none →
      ArcCons (Function.update nd var domi) x := by
  rintro ⟨w, c2⟩ ha hnot
  have hw : w ∈ c2.scope := (mem_allArcs.mp ha).2
  rw [arcCons_iff]
  by_cases hwvar : w = var
  · subst hwvar
    intro val hval
    rw [Function.update_same] at hval
    rw [supported_update_self]
    exact arcCons_iff.mp (hcons (w, c2) ha) val (hsubl.subset hval)
  · intro val hval
    rw [Function.update_noteq hwvar] at hval
    have hvarscope : var ∉ c2.scope := by
      intro habs
      refine hnot (mem_new_to_do.mpr ⟨ha, habs, by simp, hwvar⟩)
    rw [supported_update_notmem hvarscope]
    exact arcCons_iff.mp (hcons (w, c2) ha) val hval

/-- Termination of the domain-splitting recursion: the fuel bound
`solveMeasure` always suffices, because every branch strictly shrinks the
total domain size. -/
theorem solveFuel_isSome :
    ∀ (fuel : ℕ) (csp : CSP) (d : Domains) (seed : Option (List Arc)),
    solveMeasure csp d ≤ fuel → (solveFuel fuel csp d seed).isSome := by
  intro fuel
  induction fuel with
  | zero =>
    intro csp d seed hm
    exact absurd hm (by simp [solveMeasure])
  | succ n ih =>
    intro csp d seed hm
    rw [solveFuel]
    by_cases h1 : (csp.vars.any fun v =>
        ((make_arc_consistent csp (some d) seed) v).length = 0) = true
    · rw [if_pos h1]; rfl
    · rw [if_neg h1]
      by_cases h2 : (csp.vars.all fun v =>
          ((make_arc_consistent csp (some d) seed) v).length = 1) = true
      · rw [if_pos h2]; rfl
      · rw [if_neg h2]
        cases hsel : select_most_constrained_var csp
            (csp.vars.filter fun x =>
              1 < ((make_arc_consistent csp (some d) seed) x).length) with
        | error e => rfl
        | ok ovar =>
          cases ovar with
          | none => rfl
          | some var =>
            have hvarmem : var ∈ csp.vars.filter fun x =>
                1 < ((make_arc_consistent csp (some d) seed) x).length := by
              obtain ⟨rest, hrest⟩ := select_some_eq_head hsel
              rw [hrest]
              exact List.mem_cons_self _ _
            have hvars : var ∈ csp.vars := (List.mem_filter.mp hvarmem).1
            have hlen : 1 < ((make_arc_consistent csp (some d) seed) var).length := by
              have := (List.mem_filter.mp hvarmem).2
              simpa using this
            have hndsub : totalSize csp (make_arc_consistent csp (some d) seed)
                ≤ totalSize csp d :=
              totalSize_le_of_sublist fun v =>
                make_arc_consistent_sublist csp (some d) seed v
            have hm1 : solveMeasure csp (copy_with_assign
                (make_arc_consistent csp (some d) seed) (some var)
                (partition_domain
                  ((make_arc_consistent csp (some d) seed) var)).1) ≤ n := by
              have hplt := @partition_fst_length_lt
                ((make_arc_consistent csp (some d) seed) var) (by omega)
              have := totalSize_update_lt hvars hplt
              simp only [solveMeasure, copy_with_assign] at *
              omega
            have hm2 : solveMeasure csp (copy_with_assign
                (make_arc_consistent csp (some d) seed) (some var)
                (partition_domain
                  ((make_arc_consistent csp (some d) seed) var)).2) ≤ n := by
              have hplt := @partition_snd_length_lt
                ((make_arc_consistent csp (some d) seed) var) (by omega)
              have := totalSize_update_lt hvars hplt
              simp only [solveMeasure, copy_with_assign] at *
              omega
            obtain ⟨r1, hr1⟩ := Option.isSome_iff_exists.mp
              (ih csp _ (some (new_to_do csp var none)) hm1)
            dsimp only
            rw [hr1]
            cases r1 with
            | error e => rfl
            | ok r1 =>
              dsimp only
              by_cases htr : r1.truthy = true
              · rw [if_pos htr]; rfl
              · rw [if_neg htr]
                exact ih csp _ (some (new_to_do csp var none)) hm2

/-- Bridge from `solveFuel` at the supplied fuel to the wrapper. -/
theorem solve_recursive_ds_eq {csp : CSP} {dOpt : Option Domains}
    {td : Option (List Arc)} {r : Except String SolveResult}
    (h : solveFuel (solveMeasure csp (dOpt.getD csp.domains)) csp
      (dOpt.getD csp.domains) td = some r) :
    solve_recursive_ds csp dOpt td = r := by
  show (solveFuel (solveMeasure csp (dOpt.getD csp.domains)) csp
    (dOpt.getD csp.domains) td).getD (Except.ok SolveResult.noneVal) = r
  rw [h]
  rfl

/-- Soundness of a returned solution: whenever `solve_recursive_ds`
returns an assignment, the assignment reads off singleton domains of a
fully arc-consistent domain map below the entry domains.  The invariant
required of the seed queue is exactly the one the recursion maintains. -/
theorem solveFuel_sol :
    ∀ (fuel : ℕ) (csp : CSP) (d : Domains) (seed : Option (List Arc))
      (a : List (Var × ℕ)),
    (∀ c ∈ csp.constraints, ∀ v ∈ c.scope, v ∈ csp.vars) →
    (∀ c ∈ csp.constraints, c.scope.Nodup) →
    (∀ x ∈ seed.getD (allArcs csp), x ∈ allArcs csp) →
    (∀ x ∈ allArcs csp, x ∉ seed.getD (allArcs csp) → ArcCons d x) →
    solveFuel fuel csp d seed = some (.ok (.sol a)) →
    ∃ dStar : Domains,
      (∀ v, List.Sublist (dStar v) (d v)) ∧
      (∀ x ∈ allArcs csp, ArcCons dStar x) ∧
      (∀ v ∈ csp.vars, (dStar v).length = 1) ∧
      a = csp.vars.map fun v => (v, select_first (dStar v)) := by
  intro fuel
  induction fuel with
  | zero =>
    intro csp d seed a _ _ _ _ h
    exact absurd h (by simp [solveFuel])
  | succ n ih =>
    intro csp d seed a hwfv hwfs ht hinv h
    rw [solveFuel] at h
    have hndsub : ∀ v, List.Sublist ((make_arc_consistent csp (some d) seed) v)
        (d v) := fun v => make_arc_consistent_sublist csp (some d) seed v
    have hndcons : ∀ x ∈ allArcs csp,
        ArcCons (make_arc_consistent csp (some d) seed) x :=
      make_arc_consistent_allCons hwfv hwfs ht hinv
    by_cases h1 : (csp.vars.any fun v =>
        ((make_arc_consistent csp (some d) seed) v).length = 0) = true
    · rw [if_pos h1] at h
      exact absurd h (by simp)
    · rw [if_neg h1] at h
      by_cases h2 : (csp.vars.all fun v =>
          ((make_arc_consistent csp (some d) seed) v).length = 1) = true
      · rw [if_pos h2] at h
        refine ⟨make_arc_consistent csp (some d) seed, hndsub, hndcons, ?_, ?_⟩
        · intro v hv
          have := List.all_eq_true.mp h2 v hv
          simpa using this
        · have := h
          simp only [Option.some.injEq, Except.ok.injEq, SolveResult.sol.injEq]
            at this
          exact this.symm
      · rw [if_neg h2] at h
        cases hsel : select_most_constrained_var csp
            (csp.vars.filter fun x =>
              1 < ((make_arc_consistent csp (some d) seed) x).length) with
        | error e =>
          rw [hsel] at h
          simp at h
        | ok ovar =>
          cases ovar with
          | none =>
            rw [hsel] at h
            simp at h
          | some var =>
            rw [hsel] at h
            dsimp only at h
            have htd : ∀ x ∈ (some (new_to_do csp var none)).getD (allArcs csp),
                x ∈ allArcs csp := fun x hx => new_to_do_sub x hx
            cases hc1 : solveFuel n csp
                (copy_with_assign (make_arc_consistent csp (some d) seed)
                  (some var)
                  (partition_domain
                    ((make_arc_consistent csp (some d) seed) var)).1)
                (some (new_to_do csp var none)) with
            | none =>
              rw [hc1] at h
              simp at h
            | some r1 =>
              rw [hc1] at h
              cases r1 with
              | error e => simp at h
              | ok r1 =>
                dsimp only at h
                by_cases htr : r1.truthy = true
                · rw [if_pos htr] at h
                  have hr1a : r1 = .sol a := by
                    simpa using h
                  subst hr1a
                  have hinv1 : ∀ x ∈ allArcs csp,
                      x ∉ (some (new_to_do csp var none)).getD (allArcs csp) →
                      ArcCons (copy_with_assign
                        (make_arc_consistent csp (some d) seed) (some var)
                        (partition_domain
                          ((make_arc_consistent csp (some d) seed) var)).1) x :=
                    arcCons_update_of_not_new_to_do
                      (partition_fst_sublist _) hndcons
                  obtain ⟨dStar, hsub, hcons, hlen1, hmap⟩ :=
                    ih csp _ (some (new_to_do csp var none)) a hwfv hwfs htd
                      hinv1 hc1
                  refine ⟨dStar, ?_, hcons, hlen1, hmap⟩
                  intro v
                  refine (hsub v).trans ?_
                  show List.Sublist ((Function.update
                    (make_arc_consistent csp (some d) seed) var
                    (partition_domain
                      ((make_arc_consistent csp (some d) seed) var)).1) v) (d v)
                  by_cases hvv : v = var
                  · subst hvv
                    rw [Function.update_same]
                    exact (partition_fst_sublist _).trans (hndsub v)
                  · rw [Function.update_noteq hvv]
                    exact hndsub v
                · rw [if_neg htr] at h
                  have hinv2 : ∀ x ∈ allArcs csp,
                      x ∉ (some (new_to_do csp var none)).getD (allArcs csp) →
                      ArcCons (copy_with_assign
                        (make_arc_consistent csp (some d) seed) (some var)
                        (partition_domain
                          ((make_arc_consistent csp (some d) seed) var)).2) x :=
                    arcCons_update_of_not_new_to_do
                      (partition_snd_sublist _) hndcons
                  obtain ⟨dStar, hsub, hcons, hlen1, hmap⟩ :=
                    ih csp _ (some (new_to_do csp var none)) a hwfv hwfs htd
                      hinv2 h
                  refine ⟨dStar, ?_, hcons, hlen1, hmap⟩
                  intro v
                  refine (hsub v).trans ?_
                  show List.Sublist ((Function.update
                    (make_arc_consistent csp (some d) seed) var
                    (partition_domain
                      ((make_arc_consistent csp (some d) seed) var)).2) v) (d v)
                  by_cases hvv : v = var
                  · subst hvv
                    rw [Function.update_same]
                    exact (partition_snd_sublist _).trans (hndsub v)
                  · rw [Function.update_noteq hvv]
                    exact hndsub v

/-! ## From singleton arc-consistent domains to satisfied constraints -/

theorem eq_singleton_of_length_one {l : List ℕ} (h : l.length = 1) :
    l = [select_first l] := by
  match l, h with
  | [x], _ => rfl

/-- When all domains are singletons and every arc is consistent, the
assignment reading off the singletons satisfies every (nonempty-scope)
constraint. -/
theorem allCons_singleton_holds {csp : CSP} {dStar : Domains}
    (hwfv : ∀ c ∈ csp.constraints, ∀ v ∈ c.scope, v ∈ csp.vars)
    (hwfs : ∀ c ∈ csp.constraints, c.scope.Nodup)
    (hcons : ∀ x ∈ allArcs csp, ArcCons dStar x)
    (hsingle : ∀ v ∈ csp.vars, (dStar v).length = 1) :
    ∀ c ∈ csp.constraints, c.scope ≠ [] →
      c.holds (fun v => select_first (dStar v)) = true := by
  intro c hc hne
  have hval : ∀ p ∈ c.scope, dStar p = [select_first (dStar p)] :=
    fun p hp => eq_singleton_of_length_one (hsingle p (hwfv c hc p hp))
  have hv0 : c.scope.head hne ∈ c.scope := List.head_mem hne
  have harc : (c.scope.head hne, c) ∈ allArcs csp :=
    mem_allArcs.mpr ⟨hc, hv0⟩
  have hmem : select_first (dStar (c.scope.head hne))
      ∈ dStar (c.scope.head hne) := by
    rw [hval _ hv0]
    exact List.mem_cons_self _ _
  have hsupp := arcCons_iff.mp (hcons _ harc) _ hmem
  rcases (supported_iff_exists (hwfs c hc)).mp hsupp with ⟨τ, hin, hout, hh⟩
  have hcong : ∀ p ∈ c.scope, (fun v => select_first (dStar v)) p = τ p := by
    intro p hp
    by_cases hpo : p ∈ scopeOthers c (c.scope.head hne)
    · have := hin p hpo
      rw [hval p hp] at this
      exact (List.mem_singleton.mp this).symm
    · have hpv : p = c.scope.head hne := by
        by_contra hne2
        exact hpo (mem_scopeOthers.mpr ⟨hp, hne2⟩)
      rw [hpv]
      have hτ := hout (c.scope.head hne)
        (fun hmem2 => (mem_scopeOthers.mp hmem2).2 rfl)
      rw [hτ, Function.update_same]
  rw [show (c.holds fun v => select_first (dStar v)) = c.holds τ from
    holds_congr hcong]
  exact hh

/-! ## Sudoku adapter lemmas -/

theorem sudokuVars_eq {pz : Grid} (h : Wf9 pz) : sudokuVars pz = stdVars := by
  obtain ⟨hlen, hrows⟩ := h
  unfold sudokuVars stdVars
  rw [hlen, List.flatMap_def, List.flatMap_def]
  congr 1
  refine List.map_congr_left fun r hr => ?_
  have hr9 : r < 9 := List.mem_range.mp hr
  have hrp : r < pz.length := by omega
  have hrlen : (pz.getD r []).length = 9 := by
    rw [List.getD_eq_getElem pz [] hrp]
    exact hrows _ (List.getElem_mem hrp)
  rw [hrlen]


theorem gridAt_set2d_ne {g : Grid} {p q : Var} {x : ℕ} (h : q ≠ p) :
    gridAt (set2d g p x) q = gridAt g q := by
  unfold gridAt set2d
  by_cases hr : p.1 = q.1
  · have hcol : p.2 ≠ q.2 := by
      intro hc
      exact h (Prod.ext hr hc).symm
    by_cases hlt : p.1 < g.length
    · rw [List.getD_eq_getElem?_getD (g.set p.1 _), ← hr,
        List.getElem?_set_self hlt, Option.getD_some,
        List.getD_eq_getElem?_getD ((g.getD p.1 []).set p.2 x),
        List.getElem?_set_ne hcol, ← List.getD_eq_getElem?_getD, hr]
    · rw [List.set_eq_of_length_le (Nat.le_of_not_lt hlt)]
  · rw [List.getD_eq_getElem?_getD (g.set p.1 _), List.getElem?_set_ne hr,
      ← List.getD_eq_getElem?_getD]

theorem gridAt_set2d_self {g : Grid} {p : Var} {x : ℕ}
    (h1 : p.1 < g.length) (h2 : p.2 < (g.getD p.1 []).length) :
    gridAt (set2d g p x) p = x := by
  unfold gridAt set2d
  rw [List.getD_eq_getElem?_getD (g.set p.1 _), List.getElem?_set_self h1,
    Option.getD_some, List.getD_eq_getElem?_getD ((g.getD p.1 []).set p.2 x),
    List.getElem?_set_self h2, Option.getD_some]

theorem set2d_length (g : Grid) (p : Var) (x : ℕ) :
    (set2d g p x).length = g.length :=
  List.length_set ..

theorem set2d_row_length (g : Grid) (p : Var) (x : ℕ) (i : ℕ) :
    ((set2d g p x).getD i []).length = (g.getD i []).length := by
  unfold set2d
  by_cases hip : p.1 = i
  · subst hip
    by_cases hlt : p.1 < g.length
    · rw [List.getD_eq_getElem?_getD (g.set p.1 _),
        List.getElem?_set_self hlt, Option.getD_some, List.length_set]
    · rw [List.set_eq_of_length_le (Nat.le_of_not_lt hlt)]
  · rw [List.getD_eq_getElem?_getD (g.set p.1 _), List.getElem?_set_ne hip,
      ← List.getD_eq_getElem?_getD]

theorem assembleStep_eq :
    (fun (g : Grid) (pv : Var × ℕ) => set2d g pv.1 pv.2)
      = fun g pv => set2d g pv.1 pv.2 := rfl

theorem gridAt_foldl_not_mem :
    ∀ (sol : List (Var × ℕ)) (g : Grid) (p : Var),
    (∀ pv ∈ sol, pv.1 ≠ p) →
    gridAt (sol.foldl (fun g pv => set2d g pv.1 pv.2) g) p = gridAt g p := by
  intro sol
  induction sol with
  | nil => intro g p _; rfl
  | cons qv rest ih =>
    intro g p hnot
    rw [List.foldl_cons]
    rw [ih (set2d g qv.1 qv.2) p fun pv hpv =>
      hnot pv (List.mem_cons_of_mem _ hpv)]
    exact gridAt_set2d_ne fun h =>
      hnot qv (List.mem_cons_self _ _) (h ▸ rfl)

theorem foldl_length :
    ∀ (sol : List (Var × ℕ)) (g : Grid),
    (sol.foldl (fun g pv => set2d g pv.1 pv.2) g).length = g.length := by
  intro sol
  induction sol with
  | nil => intro g; rfl
  | cons qv rest ih =>
    intro g
    rw [List.foldl_cons, ih, set2d_length]

theorem foldl_row_length :
    ∀ (sol : List (Var × ℕ)) (g : Grid) (i : ℕ),
    ((sol.foldl (fun g pv => set2d g pv.1 pv.2) g).getD i []).length
      = (g.getD i []).length := by
  intro sol
  induction sol with
  | nil => intro g i; rfl
  | cons qv rest ih =>
    intro g i
    rw [List.foldl_cons, ih, set2d_row_length]

theorem gridAt_foldl_of_mem :
    ∀ (sol : List (Var × ℕ)) (g : Grid),
    (sol.map Prod.fst).Nodup →
    (∀ pv ∈ sol, pv.1.1 < g.length ∧ pv.1.2 < (g.getD pv.1.1 []).length) →
    ∀ p x, (p, x) ∈ sol →
    gridAt (sol.foldl (fun g pv => set2d g pv.1 pv.2) g) p = x := by
  intro sol
  induction sol with
  | nil =>
    intro g _ _ p x hm
    exact absurd hm (List.not_mem_nil _)
  | cons qv rest ih =>
    intro g hnd hdim p x hm
    obtain ⟨q1, q2⟩ := qv
    have hqnotin : q1 ∉ rest.map Prod.fst := (List.nodup_cons.mp
      (by simpa using hnd)).1
    rw [List.foldl_cons]
    rcases List.mem_cons.mp hm with hm1 | hm1
    · obtain ⟨hpq, hxq⟩ := Prod.mk.injEq .. ▸ hm1
      subst hpq
      subst hxq
      rw [gridAt_foldl_not_mem rest (set2d g (p, x).1 (p, x).2) p
        fun pv hpv h => hqnotin (h ▸ List.mem_map_of_mem Prod.fst hpv)]
      exact gridAt_set2d_self (hdim (p, x) (List.mem_cons_self _ _)).1
        (hdim (p, x) (List.mem_cons_self _ _)).2
    · have hp1 : p ≠ q1 := by
        intro habs
        subst habs
        exact hqnotin (List.mem_map_of_mem Prod.fst hm1)
      refine ih (set2d g (q1, q2).1 (q1, q2).2) (by simpa using
        (List.nodup_cons.mp (by simpa using hnd)).2) ?_ p x hm1
      intro pv hpv
      rw [set2d_length, set2d_row_length]
      exact hdim pv (List.mem_cons_of_mem _ hpv)

theorem assemble_length (sol : List (Var × ℕ)) : (assemble sol).length = 10 := by
  unfold assemble
  rw [foldl_length]
  rfl

theorem assemble_row_length (sol : List (Var × ℕ)) (i : ℕ) (hi : i < 10) :
    ((assemble sol).getD i []).length = 10 := by
  unfold assemble
  rw [foldl_row_length]
  show ((List.replicate 10 (List.replicate 10 0)).getD i []).length = 10
  rw [List.getD_eq_getElem _ _ (by simpa using hi), List.getElem_replicate,
    List.length_replicate]

theorem gridAt_assemble_of_mem {sol : List (Var × ℕ)}
    (hnd : (sol.map Prod.fst).Nodup)
    (hdim : ∀ pv ∈ sol, pv.1.1 < 10 ∧ pv.1.2 < 10) {p : Var} {x : ℕ}
    (hm : (p, x) ∈ sol) : gridAt (assemble sol) p = x := by
  unfold assemble
  refine gridAt_foldl_of_mem sol emptyAns hnd ?_ p x hm
  intro pv hpv
  have h1 : pv.1.1 < 10 := (hdim pv hpv).1
  have h2 : pv.1.2 < 10 := (hdim pv hpv).2
  constructor
  · show pv.1.1 < (List.replicate 10 (List.replicate 10 0)).length
    simpa using h1
  · show pv.1.2 < ((List.replicate 10 (List.replicate 10 0)).getD pv.1.1 []).length
    rw [List.getD_eq_getElem _ _ (by simpa using h1), List.getElem_replicate]
    simpa using h2

/-! ## The fully-given valid grid runs through propagation alone -/


theorem sudoku_scopes_wf :
    ∀ c ∈ sudokuConstraints, c.scope.Nodup ∧ ∀ v ∈ c.scope, v ∈ stdVars := by
  decide

theorem stdVars_nodup : stdVars.Nodup := by decide

theorem sudokuCSP_wfv {pz : Grid} (h : Wf9 pz) :
    ∀ c ∈ (sudokuCSP pz).constraints, ∀ v ∈ c.scope, v ∈ (sudokuCSP pz).vars := by
  intro c hc v hv
  show v ∈ sudokuVars pz
  rw [sudokuVars_eq h]
  exact (sudoku_scopes_wf c hc).2 v hv

theorem sudokuCSP_wfs (pz : Grid) :
    ∀ c ∈ (sudokuCSP pz).constraints, c.scope.Nodup :=
  fun c hc => (sudoku_scopes_wf c hc).1

theorem sudokuDomains_of_given {pz : Grid} {v : Var} (h : cellOf pz v ≠ 0) :
    sudokuDomains pz v = [cellOf pz v] := by
  unfold sudokuDomains
  rw [if_pos h]

/-- With every cell given and the grid valid, the initial singleton
domains are arc-consistent for every program arc. -/
theorem sudokuCSP_allCons_of_valid {pz : Grid} (hg : AllGiven pz)
    (hv : GridValid pz) :
    ∀ x ∈ allArcs (sudokuCSP pz), ArcCons (sudokuDomains pz) x := by
  rintro ⟨v, c⟩ hx
  have hc : c ∈ sudokuConstraints := (mem_allArcs.mp hx).1
  have hvs : v ∈ c.scope := (mem_allArcs.mp hx).2
  have hnd : c.scope.Nodup := (sudoku_scopes_wf c hc).1
  have hsub : ∀ u ∈ c.scope, u ∈ stdVars := (sudoku_scopes_wf c hc).2
  rw [arcCons_iff]
  intro val hval
  rw [sudokuDomains_of_given (hg v (hsub v hvs))] at hval
  obtain rfl : val = cellOf pz v := List.mem_singleton.mp hval
  refine (supported_iff_exists hnd).mpr ?_
  refine ⟨fun u => if u ∈ scopeOthers c v then cellOf pz u
    else Function.update baseEnv v (cellOf pz v) u, ?_, ?_, ?_⟩
  · intro u hu
    dsimp only
    rw [if_pos hu, sudokuDomains_of_given (hg u (hsub u (mem_scopeOthers.mp hu).1))]
    exact List.mem_singleton.mpr rfl
  · intro u hu
    dsimp only
    rw [if_neg hu]
  · have hcong : ∀ p ∈ c.scope,
        (fun u => if u ∈ scopeOthers c v then cellOf pz u
          else Function.update baseEnv v (cellOf pz v) u) p = cellOf pz p := by
      intro p hp
      dsimp only
      by_cases hpo : p ∈ scopeOthers c v
      · rw [if_pos hpo]
      · rw [if_neg hpo]
        have hpv : p = v := by
          by_contra hne2
          exact hpo (mem_scopeOthers.mpr ⟨hp, hne2⟩)
        rw [hpv, Function.update_same]
    rw [show Constraint.holds c _ = c.holds (cellOf pz) from holds_congr hcong]
    exact hv c hc

set_option maxRecDepth 4000 in
/-- A fully-given valid grid is solved by the root propagation pass: the
search returns the assignment reading off the given cells, with no
branching. -/
theorem solve_entry_of_valid_full {pz : Grid} (h9 : Wf9 pz) (hg : AllGiven pz)
    (hv : GridValid pz) :
    solve_entry pz = .ok (.sol (stdVars.map fun v => (v, cellOf pz v))) := by
  have hv9 : (sudokuCSP pz).vars = stdVars := sudokuVars_eq h9
  have hsingle : ∀ v ∈ stdVars, sudokuDomains pz v = [cellOf pz v] :=
    fun v hvm => sudokuDomains_of_given (hg v hvm)
  have hmac : make_arc_consistent (sudokuCSP pz) (some (sudokuDomains pz)) none
      = sudokuDomains pz :=
    @make_arc_consistent_of_allCons (sudokuCSP pz) (sudokuDomains pz) none
      (fun a ha => ha) (sudokuCSP_allCons_of_valid hg hv)
  refine solve_recursive_ds_eq ?_
  show solveFuel (totalSize (sudokuCSP pz) (sudokuDomains pz) + 1)
    (sudokuCSP pz) (sudokuDomains pz) none = _
  rw [solveFuel, hmac]
  have hg1 : ¬ (((sudokuCSP pz).vars.any fun v =>
      (sudokuDomains pz v).length = 0) = true) := by
    rw [List.any_eq_true]
    rintro ⟨v, hvm, hlen⟩
    rw [hsingle v (hv9 ▸ hvm)] at hlen
    simp at hlen
  have hg2 : ((sudokuCSP pz).vars.all fun v =>
      (sudokuDomains pz v).length = 1) = true := by
    rw [List.all_eq_true]
    intro v hvm
    rw [hsingle v (hv9 ▸ hvm)]
    simp
  rw [if_neg hg1, if_pos hg2]
  have hmap : (sudokuCSP pz).vars.map
      (fun v => (v, select_first (sudokuDomains pz v)))
      = stdVars.map fun v => (v, cellOf pz v) := by
    rw [hv9]
    refine List.map_congr_left fun v hvm => ?_
    rw [hsingle v hvm]
    rfl
  rw [hmap]

/-! ## Shared facts for the claim theorems -/

theorem stdVars_lt9 : ∀ v ∈ stdVars, v.1 < 9 ∧ v.2 < 9 := by decide

theorem sudoku_scopes_ne_nil : ∀ c ∈ sudokuConstraints, c.scope ≠ [] := by
  decide

theorem sudoku_scopes_len9 : ∀ c ∈ sudokuConstraints, c.scope.length = 9 := by
  decide

theorem solve_recursive_ds_sol {csp : CSP} {dOpt : Option Domains}
    {td : Option (List Arc)} {a : List (Var × ℕ)}
    (h : solve_recursive_ds csp dOpt td = .ok (.sol a)) :
    solveFuel (solveMeasure csp (dOpt.getD csp.domains)) csp
      (dOpt.getD csp.domains) td = some (.ok (.sol a)) := by
  obtain ⟨r, hr⟩ := Option.isSome_iff_exists.mp
    (solveFuel_isSome _ csp (dOpt.getD csp.domains) td le_rfl)
  rw [hr]
  rw [solve_recursive_ds_eq hr] at h
  rw [h]

set_option maxRecDepth 4000 in
/-- The properties of any assignment returned by the root search on a
well-shaped puzzle. -/
theorem solve_entry_sol_spec {pz : Grid} {a : List (Var × ℕ)} (h9 : Wf9 pz)
    (h : solve_entry pz = .ok (.sol a)) :
    ∃ dStar : Domains,
      (∀ v, List.Sublist (dStar v) (sudokuDomains pz v)) ∧
      (∀ x ∈ allArcs (sudokuCSP pz), ArcCons dStar x) ∧
      (∀ v ∈ stdVars, (dStar v).length = 1) ∧
      a = stdVars.map fun v => (v, select_first (dStar v)) := by
  have hsf := solve_recursive_ds_sol h
  obtain ⟨dStar, h1, h2, h3, h4⟩ := solveFuel_sol _ (sudokuCSP pz) _ none a
    (sudokuCSP_wfv h9) (sudokuCSP_wfs pz) (fun x hx => hx)
    (fun x hx hnx => absurd hx hnx) hsf
  have hv9 : (sudokuCSP pz).vars = stdVars := sudokuVars_eq h9
  refine ⟨dStar, h1, h2, ?_, ?_⟩
  · intro v hv
    exact h3 v (hv9 ▸ hv)
  · rw [← hv9]
    exact h4

theorem cellOf_le_nine {pz : Grid} (h9 : Wf9 pz)
    (hr : ∀ row ∈ pz, ∀ x ∈ row, x ≤ 9) :
    ∀ v ∈ stdVars, cellOf pz v ≤ 9 := by
  intro v hv
  obtain ⟨hlen, hrows⟩ := h9
  have h1 := stdVars_lt9 v hv
  have hrp : v.1 < pz.length := by omega
  unfold cellOf
  rw [List.getD_eq_getElem pz [] hrp]
  have hrow : pz[v.1] ∈ pz := List.getElem_mem hrp
  have hrl : pz[v.1].length = 9 := hrows _ hrow
  have hcp : v.2 < pz[v.1].length := by omega
  rw [List.getD_eq_getElem _ _ hcp]
  exact hr _ hrow _ (List.getElem_mem hcp)

theorem sudokuDomains_range {pz : Grid} (h9 : Wf9 pz)
    (hr : ∀ row ∈ pz, ∀ x ∈ row, x ≤ 9) :
    ∀ v ∈ stdVars, ∀ x ∈ sudokuDomains pz v, 1 ≤ x ∧ x ≤ 9 := by
  intro v hv x hx
  unfold sudokuDomains at hx
  by_cases hc : cellOf pz v ≠ 0
  · rw [if_pos hc] at hx
    obtain rfl := List.mem_singleton.mp hx
    exact ⟨by omega, cellOf_le_nine h9 hr v hv⟩
  · rw [if_neg hc] at hx
    simp only [List.mem_map, List.mem_range] at hx
    obtain ⟨i, hi, rfl⟩ := hx
    omega

/-- Writing a row-major assignment list into the answer grid hits every
standard cell once. -/
theorem gridAt_assemble_std {f : Var → ℕ} {p : Var} (hp : p ∈ stdVars) :
    gridAt (assemble (stdVars.map fun v => (v, f v))) p = f p := by
  refine gridAt_assemble_of_mem ?_ ?_ (List.mem_map_of_mem _ hp)
  · rw [List.map_map]
    have hid : (Prod.fst ∘ fun v => ((v : Var), f v)) = id := rfl
    rw [hid, List.map_id]
    exact stdVars_nodup
  · rintro pv hpv
    rw [List.mem_map] at hpv
    obtain ⟨v, hv, rfl⟩ := hpv
    have h9c := stdVars_lt9 v hv
    constructor
    · show v.1 < 10
      omega
    · show v.2 < 10
      omega

/-- Nine pairwise distinct values in [1,9] hit every value exactly
once. -/
theorem count_one_of_nine {vals : List ℕ} (hnd : vals.Nodup)
    (hlen : vals.length = 9) (hrange : ∀ x ∈ vals, 1 ≤ x ∧ x ≤ 9) :
    ∀ k, 1 ≤ k → k ≤ 9 → (vals.filter fun x => x = k).length = 1 := by
  intro k hk1 hk9
  have hsub : vals.toFinset ⊆ Finset.Icc 1 9 := by
    intro x hx
    rw [List.mem_toFinset] at hx
    rw [Finset.mem_Icc]
    exact hrange x hx
  have hcard : vals.toFinset.card = 9 := by
    rw [List.toFinset_card_of_nodup hnd, hlen]
  have hIcc : (Finset.Icc 1 9).card = 9 := by rw [Nat.card_Icc]
  have heq : vals.toFinset = Finset.Icc 1 9 :=
    Finset.eq_of_subset_of_card_le hsub (by omega)
  have hkmem : k ∈ vals := by
    rw [← List.mem_toFinset, heq, Finset.mem_Icc]
    exact ⟨hk1, hk9⟩
  have hle : vals.count k ≤ 1 := List.nodup_iff_count_le_one.mp hnd k
  have hpos : 0 < vals.count k := List.count_pos_iff.mpr hkmem
  have hfun : (fun x => x == k) = (fun x : ℕ => decide (x = k)) := by
    funext x
    rw [Bool.eq_iff_iff]
    simp
  have hcount : vals.count k = (vals.filter fun x => x = k).length := by
    rw [List.count_eq_countP, List.countP_eq_length_filter, hfun]
  omega

/-- Extract the successful-search assignment from a successful
`Sudoku.solve`. -/
theorem sudoku_solve_ok {pz g : Grid} (h : Sudoku.solve pz = .ok g) :
    ∃ a, solve_entry pz = .ok (.sol a) ∧ g = assemble a := by
  unfold Sudoku.solve at h
  cases hse : solve_entry pz with
  | error e => rw [hse] at h; exact absurd h (by simp)
  | ok r =>
    rw [hse] at h
    cases r with
    | sol a =>
      refine ⟨a, rfl, ?_⟩
      have := Except.ok.injEq .. ▸ h
      exact this.symm
    | falseVal => exact absurd h (by simp)
    | noneVal => exact absurd h (by simp)

/-- A successful root search makes `Sudoku.solve` return the assembled
answer grid. -/
theorem sudoku_solve_of_sol {pz : Grid} {a : List (Var × ℕ)}
    (h : solve_entry pz = .ok (.sol a)) :
    Sudoku.solve pz = .ok (assemble a) := by
  unfold Sudoku.solve
  rw [h]

/-- Rows of an assembled answer grid always have 10 cells. -/
theorem assemble_forall_rows (sol : List (Var × ℕ)) :
    ∀ row ∈ assemble sol, row.length = 10 := by
  intro row hrow
  obtain ⟨i, hi, hrowi⟩ := List.mem_iff_getElem.mp hrow
  have h10 : i < 10 := by
    have := assemble_length sol
    omega
  have hlen := assemble_row_length sol i h10
  rw [List.getD_eq_getElem _ _ hi, hrowi] at hlen
  exact hlen

/-- A position never written by the solution keeps the initial zero. -/
theorem gridAt_assemble_not_mem {sol : List (Var × ℕ)} {p : Var}
    (h : ∀ pv ∈ sol, pv.1 ≠ p) :
    gridAt (assemble sol) p = gridAt emptyAns p :=
  gridAt_foldl_not_mem sol emptyAns p h

/-- Cell (0,9) of the answer grid for `pzFull` is never written. -/
theorem ansFull_miss : gridAt ansFull (0, 9) = 0 := by
  have hmiss : ∀ pv ∈ solFull, pv.1 ≠ ((0 : ℕ), (9 : ℕ)) := by
    intro pv hpv
    rw [solFull, List.mem_map] at hpv
    obtain ⟨v, hv, rfl⟩ := hpv
    have h9c := stdVars_lt9 v hv
    intro habs
    have : v.2 = 9 := congrArg Prod.snd habs
    omega
  rw [ansFull, gridAt_assemble_not_mem hmiss]
  decide

/-- Concrete evaluation of the whole pipeline on the fully-solved valid
grid `pzFull`. -/
theorem solve_pzFull : Sudoku.solve pzFull = .ok ansFull :=
  sudoku_solve_of_sol
    (solve_entry_of_valid_full (by decide) (by decide) (by decide))

/-! ## Claim theorems -/

/-- C1: the spec claims that for every input puzzle on which the search
succeeds, `Sudoku.solve` returns a 9×9 grid all of whose cells lie in
[1,9].  The code initialises the answer as a 10×10 grid of zeros
(`range(10)` instead of `range(9)`), so on the solvable input `pzFull` it
returns a 10-row grid of 10-cell rows whose cell (0,9) holds 0 ∉ [1,9]. -/
theorem c1_solve_returns_ten_by_ten :
    Sudoku.solve pzFull = .ok ansFull ∧ ansFull.length = 10 ∧
    (∀ row ∈ ansFull, row.length = 10) ∧ gridAt ansFull (0, 9) = 0 ∧
    ¬(1 ≤ gridAt ansFull (0, 9) ∧ gridAt ansFull (0, 9) ≤ 9) :=
  ⟨solve_pzFull, assemble_length solFull, assemble_forall_rows solFull,
    ansFull_miss, by rw [ansFull_miss]; omega⟩

/-- C2: whenever `solve_recursive_ds` returns an assignment for a
well-shaped input puzzle, the grid `Sudoku.solve` assembles from it
satisfies all 27 all-different constraints: each of the 27 scopes (9 rows,
9 columns, 9 boxes of the 9×9 grid) holds every digit 1..9 exactly
once. -/
theorem c2_solution_satisfies_constraints :
    ∀ (pz : Grid) (a : List (Var × ℕ)), Wf9 pz →
    (∀ row ∈ pz, ∀ x ∈ row, x ≤ 9) →
    solve_entry pz = Except.ok (SolveResult.sol a) →
    ∀ c ∈ sudokuConstraints, ∀ k, 1 ≤ k → k ≤ 9 →
      (c.scope.filter fun p => gridAt (assemble a) p = k).length = 1 := by
  intro pz a h9 hr hsol c hc k hk1 hk9
  obtain ⟨dStar, hsub, hcons, hsingle, hmap⟩ := solve_entry_sol_spec h9 hsol
  have hscope_std : ∀ u ∈ c.scope, u ∈ stdVars := (sudoku_scopes_wf c hc).2
  have hgmem : ∀ u ∈ stdVars, select_first (dStar u) ∈ dStar u := by
    intro u hu
    nth_rewrite 1 [eq_singleton_of_length_one (hsingle u hu)]
    exact List.mem_singleton.mpr rfl
  have hrange : ∀ u ∈ stdVars,
      1 ≤ select_first (dStar u) ∧ select_first (dStar u) ≤ 9 := fun u hu =>
    sudokuDomains_range h9 hr u hu _ ((hsub u).subset (hgmem u hu))
  have hholds : c.holds (fun v => select_first (dStar v)) = true := by
    refine allCons_singleton_holds (sudokuCSP_wfv h9) (sudokuCSP_wfs pz)
      hcons ?_ c hc (sudoku_scopes_ne_nil c hc)
    intro v hv
    exact hsingle v (sudokuVars_eq h9 ▸ hv)
  have hdistinct := is_all_unique_iff.mp hholds
  have hgrid : ∀ p ∈ c.scope,
      gridAt (assemble a) p = select_first (dStar p) := by
    intro p hp
    rw [hmap]
    exact gridAt_assemble_std (hscope_std p hp)
  have hfilter : c.scope.filter (fun p => gridAt (assemble a) p = k)
      = c.scope.filter fun p => select_first (dStar p) = k := by
    refine List.filter_congr fun p hp => ?_
    rw [hgrid p hp]
  rw [hfilter]
  have hvals : (c.scope.filter fun p => select_first (dStar p) = k).length
      = ((c.scope.map fun v => select_first (dStar v)).filter
          fun x => x = k).length := by
    rw [List.filter_map, List.length_map]
    rfl
  rw [hvals]
  refine count_one_of_nine ?_ ?_ ?_ k hk1 hk9
  · refine List.Nodup.map_on ?_ (sudoku_scopes_wf c hc).1
    intro x hx y hy hxy
    by_contra hne
    exact (hdistinct x hx y hy hne) hxy
  · rw [List.length_map]
    exact sudoku_scopes_len9 c hc
  · intro x hx
    rw [List.mem_map] at hx
    obtain ⟨p, hp, rfl⟩ := hx
    exact hrange p (hscope_std p hp)

/-- Witness for C2: the hypotheses hold and the conclusion follows at the
fully-solved valid grid `pzFull`. -/
theorem c2_witness :
    Wf9 pzFull ∧ (∀ row ∈ pzFull, ∀ x ∈ row, x ≤ 9) ∧
    solve_entry pzFull = Except.ok (SolveResult.sol solFull) ∧
    (∀ c ∈ sudokuConstraints, ∀ k, 1 ≤ k → k ≤ 9 →
      (c.scope.filter fun p => gridAt (assemble solFull) p = k).length = 1) :=
  ⟨by decide, by decide,
    solve_entry_of_valid_full (by decide) (by decide) (by decide),
    c2_solution_satisfies_constraints pzFull solFull (by decide) (by decide)
      (solve_entry_of_valid_full (by decide) (by decide) (by decide))⟩

set_option maxRecDepth 4000 in
/-- Two distinct pre-filled cells of one constraint scope holding the same
digit drive propagation to an empty domain, so the root search returns
Python `False`. -/
theorem solve_entry_dup_false {pz : Grid} (h9 : Wf9 pz) {v1 v2 : Var}
    {c : Constraint} (hc : c ∈ sudokuConstraints) (h12 : v1 ≠ v2)
    (hv1 : v1 ∈ c.scope) (hv2 : v2 ∈ c.scope)
    (hx1 : cellOf pz v1 ≠ 0) (hx2 : cellOf pz v2 ≠ 0)
    (heq : cellOf pz v1 = cellOf pz v2) :
    solve_entry pz = .ok .falseVal := by
  have hv9 : (sudokuCSP pz).vars = stdVars := sudokuVars_eq h9
  have hstd := (sudoku_scopes_wf c hc).2
  have hnd := (sudoku_scopes_wf c hc).1
  have hcons : ∀ x ∈ allArcs (sudokuCSP pz),
      ArcCons (make_arc_consistent (sudokuCSP pz)
        (some (sudokuDomains pz)) none) x :=
    make_arc_consistent_allCons (sudokuCSP_wfv h9) (sudokuCSP_wfs pz)
      (fun x hx => hx) (fun x hx hnx => absurd hx hnx)
  have hsub1 : List.Sublist
      ((make_arc_consistent (sudokuCSP pz) (some (sudokuDomains pz)) none) v1)
      [cellOf pz v1] := by
    have hs := make_arc_consistent_sublist (sudokuCSP pz)
      (some (sudokuDomains pz)) none v1
    rwa [show (some (sudokuDomains pz)).getD (sudokuCSP pz).domains
      = sudokuDomains pz from rfl, sudokuDomains_of_given hx1] at hs
  have hsub2 : List.Sublist
      ((make_arc_consistent (sudokuCSP pz) (some (sudokuDomains pz)) none) v2)
      [cellOf pz v2] := by
    have hs := make_arc_consistent_sublist (sudokuCSP pz)
      (some (sudokuDomains pz)) none v2
    rwa [show (some (sudokuDomains pz)).getD (sudokuCSP pz).domains
      = sudokuDomains pz from rfl, sudokuDomains_of_given hx2] at hs
  have hempty :
      ((make_arc_consistent (sudokuCSP pz) (some (sudokuDomains pz)) none)
        v1).length = 0 ∨
      ((make_arc_consistent (sudokuCSP pz) (some (sudokuDomains pz)) none)
        v2).length = 0 := by
    by_contra hcon
    push_neg at hcon
    obtain ⟨h1, h2⟩ := hcon
    have he1 : (make_arc_consistent (sudokuCSP pz) (some (sudokuDomains pz))
        none) v1 = [cellOf pz v1] := by
      rcases List.sublist_singleton.mp hsub1 with h | h
      · rw [h] at h1; simp at h1
      · exact h
    have he2 : (make_arc_consistent (sudokuCSP pz) (some (sudokuDomains pz))
        none) v2 = [cellOf pz v2] := by
      rcases List.sublist_singleton.mp hsub2 with h | h
      · rw [h] at h2; simp at h2
      · exact h
    have harc : (v1, c) ∈ allArcs (sudokuCSP pz) := mem_allArcs.mpr ⟨hc, hv1⟩
    have hsupp := arcCons_iff.mp (hcons _ harc) (cellOf pz v1)
      (by rw [he1]; exact List.mem_singleton.mpr rfl)
    rcases (supported_iff_exists hnd).mp hsupp with ⟨τ, hin, hout, hh⟩
    have hτ2 : τ v2 = cellOf pz v2 := by
      have hmem := hin v2 (mem_scopeOthers.mpr ⟨hv2, fun h => h12 h.symm⟩)
      rw [he2] at hmem
      exact List.mem_singleton.mp hmem
    have hτ1 : τ v1 = cellOf pz v1 := by
      have hne := hout v1 (fun hmem => (mem_scopeOthers.mp hmem).2 rfl)
      rw [hne, Function.update_same]
    have hneq := is_all_unique_iff.mp hh v1 hv1 v2 hv2 h12
    rw [hτ1, hτ2, ← heq] at hneq
    exact hneq rfl
  refine solve_recursive_ds_eq ?_
  show solveFuel (totalSize (sudokuCSP pz) (sudokuDomains pz) + 1)
    (sudokuCSP pz) (sudokuDomains pz) none = _
  rw [solveFuel]
  have hguard : ((sudokuCSP pz).vars.any fun v =>
      ((make_arc_consistent (sudokuCSP pz) (some (sudokuDomains pz)) none)
        v).length = 0) = true := by
    rw [List.any_eq_true]
    rcases hempty with h | h
    · exact ⟨v1, by rw [hv9]; exact hstd v1 hv1, by simp [h]⟩
    · exact ⟨v2, by rw [hv9]; exact hstd v2 hv2, by simp [h]⟩
  rw [if_pos hguard]

/-- A falsy (`False`) root result makes `Sudoku.solve` raise
`AttributeError` at the attribute access `solutions.items()`. -/
theorem sudoku_solve_of_falseVal {pz : Grid}
    (h : solve_entry pz = .ok .falseVal) :
    Sudoku.solve pz
      = .error "AttributeError: bool object has no attribute items" := by
  unfold Sudoku.solve
  rw [h]

/-- The root search on the contradictory puzzle `pzDup` returns `False`. -/
theorem solve_entry_pzDup : solve_entry pzDup = .ok .falseVal :=
  @solve_entry_dup_false pzDup (by decide) (0,0) (0,1) ⟨row_to_indices 0⟩
    (by decide) (by decide) (by decide) (by decide) (by decide) (by decide)
    (by decide)

/-- Counterexample for C3: on the contradictory puzzle `pzDup` the root
search returns Python `False`, not `None`; and `Sudoku.solve` then raises
`AttributeError` instead of reporting the failure to its caller. -/
theorem c3_counterexample :
    solve_entry pzDup = Except.ok SolveResult.falseVal ∧
    SolveResult.falseVal ≠ SolveResult.noneVal ∧
    Sudoku.solve pzDup
      = .error "AttributeError: bool object has no attribute items" :=
  ⟨solve_entry_pzDup, by simp, sudoku_solve_of_falseVal solve_entry_pzDup⟩

/-- C3 (amended): when a propagated domain is empty, `solve_recursive_ds`
returns the no-solution indicator `False` (not `None`); and a falsy root
result makes `Sudoku.solve` raise `AttributeError` at
`solutions.items()` instead of reporting the failure to its caller. -/
theorem c3_amended :
    (∀ (csp : CSP) (dOpt : Option Domains) (td : Option (List Arc)),
      ((csp.vars.any fun v =>
        ((make_arc_consistent csp (some (dOpt.getD csp.domains)) td)
          v).length = 0) = true) →
      solve_recursive_ds csp dOpt td = .ok .falseVal) ∧
    (∀ pz : Grid, solve_entry pz = .ok .falseVal →
      Sudoku.solve pz
        = .error "AttributeError: bool object has no attribute items") := by
  constructor
  · intro csp dOpt td hguard
    refine solve_recursive_ds_eq ?_
    show solveFuel (totalSize csp (dOpt.getD csp.domains) + 1) csp
      (dOpt.getD csp.domains) td = _
    rw [solveFuel, if_pos hguard]
  · exact fun pz h => sudoku_solve_of_falseVal h

/-- Witness for C3 (amended): both conjuncts applied at concrete inputs:
the two-variable inconsistent CSP `c5csp`, and the contradictory puzzle
`pzDup`. -/
theorem c3_witness :
    ((c5csp.vars.any fun v =>
      ((make_arc_consistent c5csp
        (some ((none : Option Domains).getD c5csp.domains)) none)
        v).length = 0) = true) ∧
    solve_recursive_ds c5csp none none = .ok .falseVal ∧
    Sudoku.solve pzDup
      = .error "AttributeError: bool object has no attribute items" :=
  ⟨by decide, c3_amended.1 c5csp none none (by decide),
    c3_amended.2 pzDup solve_entry_pzDup⟩

/-- Python `min` over a nonempty list of equal values. -/
theorem listMin_eq_of_all_eq :
    ∀ {l : List ℕ} {x : ℕ}, l ≠ [] → (∀ y ∈ l, y = x) → listMin l = x := by
  have haux : ∀ (ys : List ℕ) (acc x : ℕ), (∀ z ∈ ys, z = x) → acc = x →
      ys.foldl min acc = x := by
    intro ys
    induction ys with
    | nil => intro acc x _ hacc; exact hacc
    | cons z zs ih =>
      intro acc x hall hacc
      rw [List.foldl_cons]
      refine ih (min acc z) x (fun w hw => hall w (List.mem_cons_of_mem _ hw)) ?_
      rw [hacc, hall z (List.mem_cons_self _ _)]
      exact min_self x
  intro l x hne hall
  match l, hne with
  | y :: ys, _ =>
    show ys.foldl min y = x
    exact haux ys y x (fun w hw => hall w (List.mem_cons_of_mem _ hw))
      (hall y (List.mem_cons_self _ _))

/-- On a candidate list of at least two variables the selection reduces to
the one-shot-generator comparison of original domain sizes. -/
theorem select_cons_cons (csp : CSP) (v1 y : Var) (ys : List Var) :
    select_most_constrained_var csp (v1 :: y :: ys)
      = if (csp.domains v1).length
          = listMin ((y :: ys).map fun i => (csp.domains i).length)
        then .ok (some v1) else .ok none := rfl

/-- Counterexample for C4: the root call on `c4csp` reaches the branching
step (no empty domain, not all singleton); in the CPython iteration order
of the variable set the multi-valued variables come as (0,1) then (0,0),
variable (0,0) has the strictly smallest post-propagation domain among
them (size 2), yet the code selects (0,1), whose post-propagation domain
has size 3. -/
theorem c4_counterexample :
    ((c4csp.vars.any fun v =>
      ((make_arc_consistent c4csp (some c4csp.domains) none) v).length = 0)
      = false) ∧
    ((c4csp.vars.all fun v =>
      ((make_arc_consistent c4csp (some c4csp.domains) none) v).length = 1)
      = false) ∧
    select_most_constrained_var c4csp (c4csp.vars.filter fun x =>
      1 < ((make_arc_consistent c4csp (some c4csp.domains) none) x).length)
      = .ok (some (0,1)) ∧
    1 < ((make_arc_consistent c4csp (some c4csp.domains) none) (0,0)).length ∧
    ((make_arc_consistent c4csp (some c4csp.domains) none) (0,0)).length
      < ((make_arc_consistent c4csp (some c4csp.domains) none) (0,1)).length
  := ⟨by decide, by decide, rfl, by decide, by decide⟩

/-- C4 (amended): at the branching step, with at least two multi-valued
candidates, only the first multi-valued variable of the iteration order
can ever be selected, and it is selected exactly when its domain size in
the original domain dictionary of the CSP (not the post-propagation one)
equals the minimum original size over the remaining multi-valued
variables — in particular whenever all those original sizes are equal, as
in Sudoku where every multi-valued variable started at size 9. -/
theorem c4_amended :
    ∀ (csp : CSP) (v1 : Var) (rest : List Var), rest ≠ [] →
    (∀ v : Var,
      select_most_constrained_var csp (v1 :: rest) = .ok (some v) →
      v = v1) ∧
    (select_most_constrained_var csp (v1 :: rest) = .ok (some v1) ↔
      (csp.domains v1).length
        = listMin (rest.map fun i => (csp.domains i).length)) := by
  intro csp v1 rest hne
  match rest, hne with
  | y :: ys, _ =>
    rw [select_cons_cons]
    by_cases h : (csp.domains v1).length
        = listMin ((y :: ys).map fun i => (csp.domains i).length)
    · rw [if_pos h]
      refine ⟨?_, ?_⟩
      · intro v hv
        exact (Option.some.inj (Except.ok.inj hv)).symm
      · exact ⟨fun _ => h, fun _ => rfl⟩
    · rw [if_neg h]
      refine ⟨?_, ?_⟩
      · intro v hv
        exact Option.noConfusion (Except.ok.inj hv)
      · refine ⟨?_, ?_⟩
        · intro hv
          exact Option.noConfusion (Except.ok.inj hv)
        · intro hc
          exact absurd hc h

/-- Witness for C4 (amended) at the branching step of `c4csp`: the
candidate list is (0,1), (0,0); only (0,1) can be selected, and it is
selected because both original domains have size 3. -/
theorem c4_witness :
    ([((0,0) : ℕ × ℕ)] ≠ []) ∧
    ((∀ v : Var,
      select_most_constrained_var c4csp [(0,1), (0,0)] = .ok (some v) →
      v = (0,1)) ∧
    (select_most_constrained_var c4csp [(0,1), (0,0)] = .ok (some (0,1)) ↔
      (c4csp.domains (0,1)).length
        = listMin ([((0,0) : Var)].map fun i => (c4csp.domains i).length))) :=
  ⟨by decide, c4_amended c4csp (0,1) [(0,0)] (by decide)⟩

/-- Counterexample for C5: with an empty seed queue the first run performs
no revision at all, so re-running with the default full queue shrinks the
map further — the two maps differ at (0,0). -/
theorem c5_counterexample :
    make_arc_consistent c5csp
      (some (make_arc_consistent c5csp (some c5csp.domains) (some []))) none
      (0,0)
      ≠ make_arc_consistent c5csp (some c5csp.domains) (some []) (0,0) := by
  decide

/-- C5 (amended): propagation is idempotent when the first run uses the
default queue holding every arc: re-running `make_arc_consistent` with no
seed arcs on the output of a full-queue run returns that output
unchanged. -/
theorem c5_amended :
    ∀ (csp : CSP) (d : Domains), WfCSP csp →
    make_arc_consistent csp (some (make_arc_consistent csp (some d) none)) none
      = make_arc_consistent csp (some d) none := by
  intro csp d hwf
  obtain ⟨hvnd, hwfc⟩ := hwf
  have hwfs : ∀ c ∈ csp.constraints, c.scope.Nodup := fun c hc => (hwfc c hc).1
  have hwfv : ∀ c ∈ csp.constraints, ∀ v ∈ c.scope, v ∈ csp.vars :=
    fun c hc => (hwfc c hc).2
  have hcons : ∀ a ∈ allArcs csp,
      ArcCons (make_arc_consistent csp (some d) none) a :=
    make_arc_consistent_allCons hwfv hwfs (fun x hx => hx)
      (fun x hx hnx => absurd hx hnx)
  exact make_arc_consistent_of_allCons (fun x hx => hx) hcons

/-- Witness for C5 (amended) at the concrete CSP `c5csp`. -/
theorem c5_witness :
    WfCSP c5csp ∧
    make_arc_consistent c5csp
      (some (make_arc_consistent c5csp (some c5csp.domains) none)) none
      = make_arc_consistent c5csp (some c5csp.domains) none :=
  ⟨by decide, c5_amended c5csp c5csp.domains (by decide)⟩

/-- C6: a value is kept by the revise step iff some combination of values
for the other scope variables, drawn from their current domains, extends
`{v: x}` to an assignment satisfying the constraint. -/
theorem c6_revise_keeps_supported :
    ∀ (d : Domains) (c : Constraint) (v : Var) (x : ℕ), c.scope.Nodup →
    (x ∈ revise d c v ↔ x ∈ d v ∧ ∃ τ : Var → ℕ,
      (∀ u ∈ scopeOthers c v, τ u ∈ d u) ∧
      (∀ u, u ∉ scopeOthers c v → τ u = Function.update baseEnv v x u) ∧
      c.holds τ = true) := by
  intro d c v x hnd
  unfold revise
  rw [List.mem_filter]
  constructor
  · rintro ⟨hmem, hsupp⟩
    obtain ⟨τ, h1, h2, h3⟩ := (supported_iff_exists hnd).mp hsupp
    exact ⟨hmem, τ, h1, h2, h3⟩
  · rintro ⟨hmem, τ, h1, h2, h3⟩
    exact ⟨hmem, (supported_iff_exists hnd).mpr ⟨τ, h1, h2, h3⟩⟩

/-- Witness for C6 at a concrete two-variable constraint: value 1 of (0,0)
is kept because the combination assigning 2 to (0,1) supports it. -/
theorem c6_witness :
    c6c.scope.Nodup ∧ 1 ∈ revise c6d c6c (0,0) :=
  ⟨by decide, (c6_revise_keeps_supported c6d c6c (0,0) 1 (by decide)).mpr
    ⟨by decide,
      fun u => if u ∈ scopeOthers c6c (0,0) then 2
        else Function.update baseEnv (0,0) 1 u,
      by decide,
      fun u hu => by simp only [if_neg hu],
      by decide⟩⟩

/-- Counterexample for C7: on the already-fully-solved valid grid `pzFull`
`Sudoku.solve` succeeds but does not return the input grid: the answer is
a 10×10 grid. -/
theorem c7_counterexample :
    Sudoku.solve pzFull = .ok ansFull ∧ ansFull ≠ pzFull := by
  refine ⟨solve_pzFull, ?_⟩
  intro habs
  have h1 : ansFull.length = 10 := assemble_length solFull
  rw [habs] at h1
  exact absurd h1 (by decide)

/-- C7 (amended): every pre-filled cell of the input keeps its value at
the same position of the returned grid; but the returned grid always has
10 rows, so a 9-row input is never returned unchanged. -/
theorem c7_amended :
    ∀ (pz g : Grid), Wf9 pz → Sudoku.solve pz = .ok g →
      (∀ p ∈ stdVars, cellOf pz p ≠ 0 → gridAt g p = cellOf pz p) ∧
      g.length = 10 := by
  intro pz g h9 hsolve
  obtain ⟨a, hse, rfl⟩ := sudoku_solve_ok hsolve
  obtain ⟨dStar, hsub, hcons, hsingle, hmap⟩ := solve_entry_sol_spec h9 hse
  refine ⟨?_, assemble_length a⟩
  intro p hp hcell
  rw [hmap, gridAt_assemble_std hp]
  have hsubp := hsub p
  rw [sudokuDomains_of_given hcell] at hsubp
  rcases List.sublist_singleton.mp hsubp with hnil | hone
  · have := hsingle p hp
    rw [hnil] at this
    simp at this
  · rw [hone]
    rfl

/-- Witness for C7 (amended) at the fully-solved valid grid `pzFull`. -/
theorem c7_witness :
    Wf9 pzFull ∧ Sudoku.solve pzFull = .ok ansFull ∧
    ((∀ p ∈ stdVars, cellOf pzFull p ≠ 0 → gridAt ansFull p = cellOf pzFull p)
      ∧ ansFull.length = 10) :=
  ⟨by decide, solve_pzFull, c7_amended pzFull ansFull (by decide) solve_pzFull⟩

/-- C8: domains are monotonically non-increasing: propagation returns, for
every variable, a subcollection of the input domain of that variable, and both
partition halves are subcollections of the split domain; no operation adds
a value. -/
theorem c8_monotonic :
    (∀ (csp : CSP) (orig : Option Domains) (td : Option (List Arc)) (v : Var),
      (make_arc_consistent csp orig td) v ⊆ (orig.getD csp.domains) v) ∧
    (∀ dom : List ℕ,
      (partition_domain dom).1 ⊆ dom ∧ (partition_domain dom).2 ⊆ dom) :=
  ⟨fun csp orig td v => (make_arc_consistent_sublist csp orig td v).subset,
    fun dom => ⟨(partition_fst_sublist dom).subset,
      (partition_snd_sublist dom).subset⟩⟩

/-- Witness for C8 at concrete instances. -/
theorem c8_witness :
    (make_arc_consistent c5csp (some c5csp.domains) none) (0,0)
      ⊆ ((some c5csp.domains).getD c5csp.domains) (0,0) ∧
    (partition_domain [1,2,3]).1 ⊆ [1,2,3] ∧
    (partition_domain [1,2,3]).2 ⊆ [1,2,3] :=
  ⟨c8_monotonic.1 c5csp (some c5csp.domains) none (0,0),
    (c8_monotonic.2 [1,2,3]).1, (c8_monotonic.2 [1,2,3]).2⟩

/-- C9: `partition_domain` splits a duplicate-free domain of size ≥ 2 into
two disjoint non-empty halves of sizes ⌊n/2⌋ and n − ⌊n/2⌋, each strictly
smaller than the original; the domain-splitting recursion always
terminates within the `solveMeasure` fuel bound; and the
`make_arc_consistent` work loop always terminates within the `macMeasure`
fuel bound on program arcs. -/
theorem c9_termination :
    (∀ dom : List ℕ, dom.Nodup → 2 ≤ dom.length →
      (partition_domain dom).1.length = dom.length / 2 ∧
      (partition_domain dom).2.length = dom.length - dom.length / 2 ∧
      (partition_domain dom).1 ≠ [] ∧ (partition_domain dom).2 ≠ [] ∧
      (∀ x ∈ (partition_domain dom).1, x ∉ (partition_domain dom).2) ∧
      (partition_domain dom).1.length < dom.length ∧
      (partition_domain dom).2.length < dom.length) ∧
    (∀ (csp : CSP) (d : Domains) (seed : Option (List Arc)),
      (solveFuel (solveMeasure csp d) csp d seed).isSome) ∧
    (∀ (csp : CSP) (d : Domains) (t : List Arc),
      (∀ c ∈ csp.constraints, ∀ v ∈ c.scope, v ∈ csp.vars) →
      (∀ a ∈ t, a ∈ allArcs csp) →
      (macFuel (macMeasure csp d t) csp d t).isSome) :=
  ⟨fun _ h1 h2 => partition_domain_sizes h1 h2,
    fun csp d seed => solveFuel_isSome _ csp d seed le_rfl,
    fun csp d t h1 h2 => macFuel_isSome _ csp d t h1 h2 le_rfl⟩

/-- Witness for C9 at concrete instances. -/
theorem c9_witness :
    ([1,2,3] : List ℕ).Nodup ∧ 2 ≤ ([1,2,3] : List ℕ).length ∧
    ((partition_domain [1,2,3]).1.length = 1 ∧
      (partition_domain [1,2,3]).2.length = 2) ∧
    (solveFuel (solveMeasure c5csp c5csp.domains) c5csp c5csp.domains
      none).isSome ∧
    (macFuel (macMeasure c5csp c5csp.domains []) c5csp c5csp.domains
      []).isSome :=
  ⟨by decide, by decide,
    ⟨(c9_termination.1 [1,2,3] (by decide) (by decide)).1,
      (c9_termination.1 [1,2,3] (by decide) (by decide)).2.1⟩,
    c9_termination.2.1 c5csp c5csp.domains none,
    c9_termination.2.2 c5csp c5csp.domains [] (by decide) (by decide)⟩

/-- C10: a one-element iterator makes `select_most_constrained_var` raise
`ValueError` (the inner `min` has consumed the shared iterator), and
consequently `solve_recursive_ds` propagates the exception instead of
branching whenever exactly one variable has a multi-valued domain after
propagation. -/
theorem c10_generator_consumed :
    (∀ (csp : CSP) (v : Var), select_most_constrained_var csp [v]
      = .error "ValueError: min arg is an empty sequence") ∧
    (∀ (csp : CSP) (dOpt : Option Domains) (td : Option (List Arc)) (v : Var),
      ((csp.vars.any fun u =>
        ((make_arc_consistent csp (some (dOpt.getD csp.domains)) td)
          u).length = 0) = false) →
      ((csp.vars.all fun u =>
        ((make_arc_consistent csp (some (dOpt.getD csp.domains)) td)
          u).length = 1) = false) →
      ((csp.vars.filter fun x =>
        1 < ((make_arc_consistent csp (some (dOpt.getD csp.domains)) td)
          x).length) = [v]) →
      solve_recursive_ds csp dOpt td
        = .error "ValueError: min arg is an empty sequence") := by
  constructor
  · intro csp v
    rfl
  · intro csp dOpt td v h1 h2 h3
    refine solve_recursive_ds_eq ?_
    show solveFuel (totalSize csp (dOpt.getD csp.domains) + 1) csp
      (dOpt.getD csp.domains) td = _
    rw [solveFuel, if_neg (by rw [h1]; simp), if_neg (by rw [h2]; simp), h3]
    rfl

/-- Witness for C10 at the concrete CSP `cspC10`, whose root propagation
leaves exactly one multi-valued variable. -/
theorem c10_witness :
    select_most_constrained_var cspC10 [(0,0)]
      = .error "ValueError: min arg is an empty sequence" ∧
    ((cspC10.vars.any fun u =>
      ((make_arc_consistent cspC10 (some ((none : Option Domains).getD
        cspC10.domains)) none) u).length = 0) = false) ∧
    ((cspC10.vars.all fun u =>
      ((make_arc_consistent cspC10 (some ((none : Option Domains).getD
        cspC10.domains)) none) u).length = 1) = false) ∧
    ((cspC10.vars.filter fun x =>
      1 < ((make_arc_consistent cspC10 (some ((none : Option Domains).getD
        cspC10.domains)) none) x).length) = [(0,0)]) ∧
    solve_recursive_ds cspC10 none none
      = .error "ValueError: min arg is an empty sequence" :=
  ⟨c10_generator_consumed.1 cspC10 (0,0), by decide, by decide, by decide,
    c10_generator_consumed.2 cspC10 none none (0,0) (by decide) (by decide)
      (by decide)⟩

end SudokuA2
